import Mathlib

/-!
# Verification of the gfile chunked-transfer client

A shallow embedding of `gfile/gfile.py` (size codec, `split_file`, the
chunked upload coordinator, and the download tail), together with proofs
of the behavioural properties stated in the specification.

Python's arithmetic on sizes goes through IEEE binary64 (`int / int` true
division, `int * float` products, `math.pow`).  Those operations are
exactly characterised by rounding to 53 significand bits with ties to
even, which we model precisely below; `int / int` true division and
`int -> float` conversion are correctly rounded in CPython, so the model
is exact for them.
-/

namespace GFile

/-- Round a natural number to the nearest multiple of `step`, ties to the
even multiple.  This is the rounding performed when a large integer is
converted to a binary64 value. -/
def roundMulNE (n step : Nat) : Nat :=
  let q := n / step
  let r := n % step
  if 2 * r < step then q * step
  else if step < 2 * r then (q + 1) * step
  else if q % 2 = 0 then q * step else (q + 1) * step

/-- Fuel-driven floor logarithm, structurally recursive so that concrete
instances reduce inside the kernel; `natLog` below supplies adequate
fuel and agrees with `Nat.log`. -/
def natLogAux (b : Nat) : Nat → Nat → Nat
  | 0, _ => 0
  | fuel + 1, n => if 2 ≤ b ∧ b ≤ n then natLogAux b fuel (n / b) + 1 else 0

/-- Floor of the base-`b` logarithm of `n` (equal to `Nat.log b n`, but
computable by kernel reduction). -/
def natLog (b n : Nat) : Nat :=
  natLogAux b n n

/-- The binary64 value nearest to the natural number `n` (round to
nearest, ties to even).  Naturals below `2 ^ 53` are exactly
representable; above that the value is rounded to a multiple of the unit
in the last place `2 ^ (log2 n - 52)`.  This models CPython's
`int -> float` conversion, which is correctly rounded. -/
def floatOfNat (n : Nat) : Nat :=
  if n < 2 ^ 53 then n else roundMulNE n (2 ^ (natLog 2 n - 52))

/-- Round the nonnegative rational `num / den` to the nearest integer,
ties to even. -/
def roundRatNE (num den : Nat) : Nat :=
  let q := num / den
  let r := num % den
  if 2 * r < den then q
  else if den < 2 * r then q + 1
  else if q % 2 = 0 then q else q + 1

/-- Fuel-driven decimal rendering of a natural number, most significant
digit first (structurally recursive for kernel reduction). -/
def natCharsAux : Nat → Nat → List Char
  | 0, _ => []
  | fuel + 1, n =>
    if n < 10 then [Char.ofNat (48 + n)]
    else natCharsAux fuel (n / 10) ++ [Char.ofNat (48 + n % 10)]

/-- Decimal digit characters of a natural number, most significant
first. -/
def natChars (n : Nat) : List Char :=
  natCharsAux (n + 1) n

/-- The unit names used by `bytes_to_size_str` (gfile.py line 24). -/
def sizeUnits : List String :=
  ["B", "KB", "MB", "GB", "TB", "PB", "EB", "ZB", "YB"]

/-- Render `scaled100 / 100` with exactly two decimal places followed by
a space and the unit name: the result of the format string
`f"\x7bbytes/p:.02f\x7d \x7bunits[i]\x7d"` (gfile.py line 27), where
`scaled100` is the already-rounded value of `100 * bytes / p`. -/
def renderSize (scaled100 : Nat) (unit : String) : String :=
  String.mk (natChars (scaled100 / 100) ++ '.' ::
    ((if scaled100 % 100 < 10 then ['0'] else []) ++
      natChars (scaled100 % 100) ++ ' ' :: unit.data))

/-- Model of `bytes_to_size_str` (gfile.py lines 21-27).

* `i = int(math.floor(math.log(bytes, 1024)))` is modelled as the exact
  base-1024 logarithm floor `natLog 1024 bytes` (`= Nat.log 1024 bytes`).  The libm computation
  `log(x)/log(1024)` rounds up to exactly `k` for arguments within a
  relative distance of roughly `2 ^ (-50)` below `1024 ^ k`, so the real
  program deviates from this exact floor in a narrow band below each
  unit boundary; see the analysis of the unit-selection property below,
  where that deviation is treated as a defect of the code.  Away from
  those bands (in particular at every input used in a theorem about the
  rendered string of this model) the exact floor agrees with CPython.
* `bytes / p` converts `bytes` to binary64 (rounding it when it exceeds
  `2 ^ 53`) and then divides by `p = 1024 ^ i` exactly, and the `.02f`
  format rounds the resulting dyadic rational to two decimal places with
  ties to even, which is `roundRatNE (100 * float(bytes)) (1024 ^ i)`.
* `units[i]` for `i ≥ 9` raises `IndexError`, modelled by `none`. -/
def bytes_to_size_str (bytes : Nat) : Option String :=
  if bytes = 0 then some "0B"
  else
    let i := natLog 1024 bytes
    if i < 9 then
      some (renderSize (roundRatNE (floatOfNat bytes * 100) (1024 ^ i))
        (sizeUnits.getD i ""))
    else none

/-- Does the character match the unit group `[KMGTPEZY]` of the size
regex (case-insensitively), and if so which power of 1024 does it denote
(`units.index(unit)` over `("B","K","M","G","T","P","E","Z","Y")`,
gfile.py lines 35-36)? -/
def unitIndex? (c : Char) : Option Nat :=
  if c = 'K' ∨ c = 'k' then some 1
  else if c = 'M' ∨ c = 'm' then some 2
  else if c = 'G' ∨ c = 'g' then some 3
  else if c = 'T' ∨ c = 't' then some 4
  else if c = 'P' ∨ c = 'p' then some 5
  else if c = 'E' ∨ c = 'e' then some 6
  else if c = 'Z' ∨ c = 'z' then some 7
  else if c = 'Y' ∨ c = 'y' then some 8
  else none

/-- Does the character list match the optional suffix group `(iB|B)?` of
the size regex, case-insensitively? -/
def suffixOk : List Char → Bool
  | [] => true
  | [b] => b = 'B' ∨ b = 'b'
  | [i, b] => (i = 'i' ∨ i = 'I') ∧ (b = 'B' ∨ b = 'b')
  | _ => false

/-- Numeric value of a list of decimal digit characters (Python
`int(m[num])`). -/
def digitsVal (ds : List Char) : Nat :=
  ds.foldl (fun a c => 10 * a + (c.toNat - 48)) 0

/-- Matching of `^(?P<num>\d+) ?((?P<unit>[KMGTPEZY]?)(iB|B)?)$` with
`re.IGNORECASE` (gfile.py line 33) against a character list, returning
the numeric value of the digit group and the power-of-1024 index of the
unit group (0 when the unit is absent).  The regex is deterministic on
its alphabet (digits, one optional space, a unit letter, an `iB`/`B`
suffix are pairwise disjoint character classes), so greedy matching is
complete.  Digits are modelled as ASCII `0`-`9` (CPython's `\d` would
also accept other Unicode decimal digits).  `dropOneSpace` consumes the
optional single space of the group ` ?`. -/
def dropOneSpace : List Char → List Char
  | [] => []
  | c :: t => if c = ' ' then t else c :: t

/-- Matching of the unit-and-suffix part of the size regex against what
remains after the digits and the optional space. -/
def parseSizeTail (ds : List Char) : List Char → Option (Nat × Nat)
  | [] => some (digitsVal ds, 0)
  | c :: t =>
    match unitIndex? c with
    | some i => if suffixOk t then some (digitsVal ds, i) else none
    | none => if suffixOk (c :: t) then some (digitsVal ds, 0) else none

/-- Core matcher of the size regex; see `dropOneSpace` above for the
description of the grammar. -/
def parseSizeChars (cs : List Char) : Option (Nat × Nat) :=
  let ds := cs.takeWhile Char.isDigit
  if ds = [] then none
  else parseSizeTail ds (dropOneSpace (cs.dropWhile Char.isDigit))

/-- Model of `size_str_to_bytes` (gfile.py lines 30-37).  An integer
argument is returned unchanged (line 31-32).  A string argument is
matched against the size regex; a failed match trips `assert m`
(`AssertionError`, modelled by `none`).  On a match the result is
`int(math.pow(1024, units.index(unit)) * int(num))`: `math.pow(1024, i)`
is the exact binary64 `2 ^ (10 * i)` for `i ≤ 8`, the product first
rounds `int(num)` to binary64 (`floatOfNat`) and then scales it by a
power of two, exactly, unless the scaled value reaches `2 ^ 1024`, in
which case the product overflows to infinity and `int(...)` raises
`OverflowError` (modelled by `none`). -/
def size_str_to_bytes : Int ⊕ String → Option Int
  | .inl z => some z
  | .inr s =>
    match parseSizeChars s.data with
    | none => none
    | some (num, i) =>
      let f := floatOfNat num * 2 ^ (10 * i)
      if f < 2 ^ 1024 then some (f : Int) else none

/-- The composite round trip of the size codec: format a byte count,
then parse the rendered string back (the property stated in the
specification as `parse(format(n)) ≈ n`). -/
def sizeRoundTrip (n : Nat) : Option Int :=
  (bytes_to_size_str n).bind fun s => size_str_to_bytes (.inr s)

/-- The binade of the quotient `S / C` of two positive naturals: the
unique `e` with `2 ^ e ≤ S / C < 2 ^ (e + 1)`, computed from the two
integer binades. -/
def floatDivE (S C : Nat) : Int :=
  if C * 2 ^ natLog 2 S ≤ S * 2 ^ natLog 2 C
  then (natLog 2 S : Int) - natLog 2 C
  else (natLog 2 S : Int) - natLog 2 C - 1

/-- The exponent of the unit in the last place of the rounded quotient
`S / C`: 52 bits below the binade, clamped to the subnormal grid
`2 ^ (-1074)`. -/
def floatDivG (S C : Nat) : Int :=
  max (floatDivE S C - 52) (-1074)

/-- The significand of the correctly rounded binary64 quotient `S / C`:
the exact quotient divided by the ulp, rounded to the nearest integer
with ties to even. -/
def floatDivM (S C : Nat) : Nat :=
  roundRatNE (S * 2 ^ (-floatDivG S C).toNat) (C * 2 ^ (floatDivG S C).toNat)

/-- CPython's correctly rounded binary64 true division `S / C` of two
naturals, as an exact rational: the quotient is rounded to 53
significand bits (ties to even), with the significand grid clamped to
`2 ^ (-1074)` in the subnormal range and overflow to infinity (modelled
by `none`) at `2 ^ 1024`.  Division by zero raises `ZeroDivisionError`
(also `none`). -/
def floatDiv (S C : Nat) : Option ℚ :=
  if C = 0 then none
  else if S = 0 then some 0
  else
    if (floatDivM S C : ℚ) * (2 : ℚ) ^ floatDivG S C < 2 ^ 1024
    then some ((floatDivM S C : ℚ) * (2 : ℚ) ^ floatDivG S C)
    else none

/-- The chunk count computed by `upload()` (gfile.py line 170):
`math.ceil(size / self.chunk_size)`, where `/` is binary64 true
division. -/
def pyChunkCount (size chunk_size : Nat) : Option Int :=
  (floatDiv size chunk_size).map Int.ceil

/-- The loop of `split_file` (gfile.py lines 70-79) on a source file
that has been seeked to position `pos`, accumulating the list of chunks
passed to `out.write`.  `none` models the `raise Exception` branch. -/
def split_loop (file : List α) (bufSize outSize : Nat) (pos size : Nat)
    (acc : List (List α)) : Option (List (List α)) :=
  if h1 : size = outSize then some acc.reverse
  else if h2 : outSize < size then none
  else
    let cur := min bufSize (outSize - size)
    let chunk := (file.drop pos).take cur
    if h : chunk.length = 0 then some acc.reverse
    else split_loop file bufSize outSize (pos + chunk.length) (size + chunk.length)
      (chunk :: acc)
  termination_by outSize - size
  decreasing_by simp only [chunk, cur] at h; omega

/-- Model of `split_file` (gfile.py lines 58-79).  The source file is
its list of bytes; the returned list is the sequence of chunks written
to `out`, in order (`none` models an uncaught exception).  When
`start` exceeds the file size, `output_size` is negative and the first
loop iteration hits the `raise` branch. -/
def split_file (file : List α) (target_size : Option Nat) (start : Nat)
    (chunk_copy_size : Nat) : Option (List (List α)) :=
  let input_size := file.length
  let output_size : Int := match target_size with
    | none => (input_size : Int) - start
    | some t => min (t : Int) ((input_size : Int) - start)
  if output_size < 0 then none
  else split_loop file chunk_copy_size output_size.toNat start 0 []

/-! ## Basic lemmas about the numeric helpers -/

theorem natLogAux_eq_log {b : Nat} (hb : 2 ≤ b) :
    ∀ fuel n, n ≤ fuel → natLogAux b fuel n = Nat.log b n := by
  intro fuel
  induction fuel with
  | zero =>
    intro n hn
    have hn0 : n = 0 := Nat.le_zero.mp hn
    subst hn0
    simp [natLogAux]
  | succ fuel ih =>
    intro n hn
    by_cases h : b ≤ n
    · have hnpos : 0 < n := lt_of_lt_of_le (by omega) h
      have hdiv : n / b < n := Nat.div_lt_self hnpos (by omega)
      rw [natLogAux, if_pos ⟨hb, h⟩, ih (n / b) (by omega),
        Nat.log_of_one_lt_of_le (by omega) h]
    · rw [natLogAux, if_neg (by tauto), Nat.log_of_lt (by omega)]

theorem natLog_eq_log {b : Nat} (hb : 2 ≤ b) (n : Nat) :
    natLog b n = Nat.log b n :=
  natLogAux_eq_log hb n n le_rfl

/-- `natLog` enjoys the defining bounds of the floor logarithm. -/
theorem natLog_bounds {b n : Nat} (hb : 2 ≤ b) (hn : 1 ≤ n) :
    b ^ natLog b n ≤ n ∧ n < b ^ (natLog b n + 1) := by
  rw [natLog_eq_log hb]
  exact ⟨Nat.pow_log_le_self b (by omega),
    Nat.lt_pow_succ_log_self (by omega) n⟩

theorem floatOfNat_of_lt {n : Nat} (h : n < 2 ^ 53) : floatOfNat n = n := by
  rw [floatOfNat, if_pos h]

/-- Every character emitted by `natCharsAux` is an ASCII digit. -/
theorem natCharsAux_isDigit :
    ∀ fuel n c, c ∈ natCharsAux fuel n → c.isDigit = true := by
  intro fuel
  induction fuel with
  | zero => intro n c hc; simp [natCharsAux] at hc
  | succ fuel ih =>
    intro n c hc
    rw [natCharsAux] at hc
    by_cases h : n < 10
    · rw [if_pos h] at hc
      simp only [List.mem_singleton] at hc
      subst hc
      interval_cases n <;> decide
    · rw [if_neg h] at hc
      rcases List.mem_append.mp hc with h1 | h2
      · exact ih _ c h1
      · simp only [List.mem_singleton] at h2
        subst h2
        have h10 : n % 10 < 10 := Nat.mod_lt _ (by omega)
        generalize n % 10 = k at h10 ⊢
        interval_cases k <;> decide

theorem natChars_isDigit {n : Nat} {c : Char} (hc : c ∈ natChars n) :
    c.isDigit = true :=
  natCharsAux_isDigit (n + 1) n c hc

/-! ## Lemmas about the size-string parser -/

theorem takeWhile_append_all {α : Type} {p : α → Bool} :
    ∀ l1 l2 : List α, (∀ c ∈ l1, p c = true) →
      (l1 ++ l2).takeWhile p = l1 ++ l2.takeWhile p := by
  intro l1
  induction l1 with
  | nil => intro l2 _; simp
  | cons a l ih =>
    intro l2 hall
    have ha : p a = true := hall a (by simp)
    simp only [List.cons_append, List.takeWhile_cons, ha]
    rw [ih l2 (fun c hc => hall c (by simp [hc]))]
    simp

theorem dropWhile_append_all {α : Type} {p : α → Bool} :
    ∀ l1 l2 : List α, (∀ c ∈ l1, p c = true) →
      (l1 ++ l2).dropWhile p = l2.dropWhile p := by
  intro l1
  induction l1 with
  | nil => intro l2 _; simp
  | cons a l ih =>
    intro l2 hall
    have ha : p a = true := hall a (by simp)
    simp only [List.cons_append, List.dropWhile_cons, ha]
    exact ih l2 (fun c hc => hall c (by simp [hc]))

theorem suffixOk_dot (t : List Char) : suffixOk ('.' :: t) = false := by
  rcases t with _ | ⟨x, _ | ⟨y, r⟩⟩ <;> simp [suffixOk]

/-- The parser rejects any string whose digit prefix is followed by a
decimal point: the regex has no alternative that accepts `.`. -/
theorem parseSizeChars_dot (ds t : List Char)
    (hds : ∀ c ∈ ds, c.isDigit = true) :
    parseSizeChars (ds ++ '.' :: t) = none := by
  rw [parseSizeChars]
  have htake : (ds ++ '.' :: t).takeWhile Char.isDigit = ds := by
    rw [takeWhile_append_all ds _ hds]
    simp [List.takeWhile_cons]
  have hdrop : (ds ++ '.' :: t).dropWhile Char.isDigit = '.' :: t := by
    rw [dropWhile_append_all ds _ hds]
    simp [List.dropWhile_cons]
  simp only [htake, hdrop]
  by_cases hds0 : ds = []
  · simp [hds0]
  · rw [if_neg hds0]
    have hd1 : dropOneSpace ('.' :: t) = '.' :: t := by
      simp [dropOneSpace]
    rw [hd1]
    have hu : unitIndex? '.' = none := by decide
    simp [parseSizeTail, hu, suffixOk_dot]

/-- A decomposition witnessing that a string matches the size regex
`^(?P<num>\d+) ?((?P<unit>[KMGTPEZY]?)(iB|B)?)$` (case-insensitively),
with digit-group value `num` and unit index `idx`. -/
def SizeStrShape (s : String) (num idx : Nat) : Prop :=
  ∃ ds sp u suf : List Char,
    s.data = ds ++ sp ++ u ++ suf ∧
    ds ≠ [] ∧ (∀ c ∈ ds, c.isDigit = true) ∧
    (sp = [] ∨ sp = [' ']) ∧
    ((u = [] ∧ idx = 0) ∨ ∃ c, u = [c] ∧ unitIndex? c = some idx) ∧
    suffixOk suf = true ∧
    num = digitsVal ds

theorem unitIndex?_cases {c : Char} {i : Nat} (h : unitIndex? c = some i) :
    (c = 'K' ∨ c = 'k' ∨ c = 'M' ∨ c = 'm' ∨ c = 'G' ∨ c = 'g' ∨
     c = 'T' ∨ c = 't' ∨ c = 'P' ∨ c = 'p' ∨ c = 'E' ∨ c = 'e' ∨
     c = 'Z' ∨ c = 'z' ∨ c = 'Y' ∨ c = 'y') ∧ 1 ≤ i ∧ i ≤ 8 := by
  unfold unitIndex? at h
  split_ifs at h with h1 h2 h3 h4 h5 h6 h7 h8
  all_goals injection h with hi
  all_goals exact ⟨by tauto, by omega⟩

theorem unitIndex?_not_digit {c : Char} {i : Nat} (h : unitIndex? c = some i) :
    c.isDigit = false := by
  rcases (unitIndex?_cases h).1 with h | h | h | h | h | h | h | h | h | h |
    h | h | h | h | h | h <;> subst h <;> decide

theorem suffixOk_head {c : Char} {t : List Char}
    (h : suffixOk (c :: t) = true) :
    c = 'B' ∨ c = 'b' ∨ c = 'i' ∨ c = 'I' := by
  rcases t with _ | ⟨x, _ | ⟨y, r⟩⟩ <;> simp [suffixOk] at h <;> tauto

theorem suffixOk_head_not_digit {c : Char} {t : List Char}
    (h : suffixOk (c :: t) = true) : c.isDigit = false := by
  rcases suffixOk_head h with h | h | h | h <;> subst h <;> decide

theorem suffixOk_head_no_unit {c : Char} {t : List Char}
    (h : suffixOk (c :: t) = true) : unitIndex? c = none := by
  rcases suffixOk_head h with h | h | h | h <;> subst h <;> decide

theorem unit_head_not_space {c : Char} {i : Nat} (h : unitIndex? c = some i) :
    (c = ' ') = False := by
  rcases (unitIndex?_cases h).1 with h | h | h | h | h | h | h | h | h | h |
    h | h | h | h | h | h <;> subst h <;> decide

theorem suffix_head_not_space {c : Char} {t : List Char}
    (h : suffixOk (c :: t) = true) : (c = ' ') = False := by
  rcases suffixOk_head h with h | h | h | h <;> subst h <;> decide

theorem parseSizeTail_complete {ds u suf : List Char} {idx : Nat}
    (hu : (u = [] ∧ idx = 0) ∨ ∃ c, u = [c] ∧ unitIndex? c = some idx)
    (hsuf : suffixOk suf = true) :
    parseSizeTail ds (u ++ suf) = some (digitsVal ds, idx) := by
  rcases hu with ⟨hu0, hidx⟩ | ⟨cu, hu1, hui⟩
  · subst hu0
    subst hidx
    simp only [List.nil_append]
    rcases suf with _ | ⟨c, t⟩
    · rfl
    · simp only [parseSizeTail, suffixOk_head_no_unit hsuf, hsuf, if_true]
  · subst hu1
    simp only [List.cons_append, List.nil_append, parseSizeTail, hui, hsuf,
      if_true]

theorem parseSizeTail_sound {ds rest1 : List Char} {num idx : Nat}
    (h : parseSizeTail ds rest1 = some (num, idx)) :
    num = digitsVal ds ∧ ∃ u suf : List Char, rest1 = u ++ suf ∧
      ((u = [] ∧ idx = 0) ∨ ∃ c, u = [c] ∧ unitIndex? c = some idx) ∧
      suffixOk suf = true := by
  rcases rest1 with _ | ⟨c, t⟩
  · simp only [parseSizeTail, Option.some.injEq, Prod.mk.injEq] at h
    exact ⟨h.1.symm, [], [], rfl, Or.inl ⟨rfl, h.2.symm⟩, rfl⟩
  · simp only [parseSizeTail] at h
    rcases hun : unitIndex? c with _ | i1 <;> rw [hun] at h
    · by_cases hsuf : suffixOk (c :: t) = true
      · rw [hsuf] at h
        simp only [if_true, Option.some.injEq, Prod.mk.injEq] at h
        exact ⟨h.1.symm, [], c :: t, rfl, Or.inl ⟨rfl, h.2.symm⟩, hsuf⟩
      · rw [Bool.not_eq_true] at hsuf
        rw [hsuf] at h
        exact absurd h (by simp)
    · by_cases hsuf : suffixOk t = true
      · rw [hsuf] at h
        simp only [if_true, Option.some.injEq, Prod.mk.injEq] at h
        exact ⟨h.1.symm, [c], t, rfl, Or.inr ⟨c, rfl, by rw [hun, h.2]⟩, hsuf⟩
      · rw [Bool.not_eq_true] at hsuf
        rw [hsuf] at h
        exact absurd h (by simp)

/-- Completeness of the greedy matcher: every decomposition that the
regex accepts is found by `parseSizeChars`, with the same captures. -/
theorem parseSizeChars_complete {s : String} {num idx : Nat}
    (h : SizeStrShape s num idx) :
    parseSizeChars s.data = some (num, idx) := by
  obtain ⟨ds, sp, u, suf, hdata, hne, hdig, hsp, hu, hsuf, hnum⟩ := h
  have hrest_head : ∀ c t, sp ++ (u ++ suf) = c :: t → c.isDigit = false := by
    intro c t hct
    rcases hsp with hsp | hsp
    · subst hsp
      simp only [List.nil_append] at hct
      rcases hu with ⟨hu0, _⟩ | ⟨cu, hu1, hui⟩
      · subst hu0
        simp only [List.nil_append] at hct
        subst hct
        exact suffixOk_head_not_digit hsuf
      · subst hu1
        simp only [List.cons_append] at hct
        obtain ⟨hc, _⟩ := List.cons.inj hct
        subst hc
        exact unitIndex?_not_digit hui
    · subst hsp
      simp only [List.cons_append] at hct
      obtain ⟨hc, _⟩ := List.cons.inj hct
      subst hc
      decide
  rw [parseSizeChars, hdata, List.append_assoc, List.append_assoc]
  have htake : (ds ++ (sp ++ (u ++ suf))).takeWhile Char.isDigit = ds := by
    rw [takeWhile_append_all ds _ hdig]
    rcases hrest : sp ++ (u ++ suf) with _ | ⟨c, t⟩
    · simp
    · rw [List.takeWhile_cons, hrest_head c t hrest]
      simp
  have hdrop : (ds ++ (sp ++ (u ++ suf))).dropWhile Char.isDigit
      = sp ++ (u ++ suf) := by
    rw [dropWhile_append_all ds _ hdig]
    rcases hrest : sp ++ (u ++ suf) with _ | ⟨c, t⟩
    · simp
    · rw [List.dropWhile_cons, hrest_head c t hrest]
      simp
  simp only [htake, hdrop, if_neg hne]
  have hone : dropOneSpace (sp ++ (u ++ suf)) = u ++ suf := by
    rcases hsp with hsp | hsp
    · subst hsp
      simp only [List.nil_append]
      rcases hu with ⟨hu0, _⟩ | ⟨cu, hu1, hui⟩
      · subst hu0
        simp only [List.nil_append]
        rcases suf with _ | ⟨c, t⟩
        · rfl
        · simp [dropOneSpace, suffix_head_not_space hsuf]
      · subst hu1
        simp [dropOneSpace, unit_head_not_space hui]
    · subst hsp
      simp [dropOneSpace]
  rw [hone, hnum]
  exact parseSizeTail_complete hu hsuf

/-- Soundness of the matcher: a successful parse exhibits a
decomposition accepted by the regex. -/
theorem parseSizeChars_sound {cs : List Char} {num idx : Nat}
    (h : parseSizeChars cs = some (num, idx)) :
    SizeStrShape (String.mk cs) num idx := by
  rw [parseSizeChars] at h
  by_cases hds : cs.takeWhile Char.isDigit = []
  · rw [if_pos hds] at h
    exact absurd h (by simp)
  · rw [if_neg hds] at h
    have hsplit : cs = cs.takeWhile Char.isDigit ++ cs.dropWhile Char.isDigit :=
      (List.takeWhile_append_dropWhile Char.isDigit cs).symm
    have hdig : ∀ c ∈ cs.takeWhile Char.isDigit, c.isDigit = true :=
      fun c hc => List.mem_takeWhile_imp hc
    obtain ⟨hnum, u, suf, husuf, hu, hsuf⟩ := parseSizeTail_sound h
    have shape : ∀ sp : List Char, (sp = [] ∨ sp = [' ']) →
        cs.dropWhile Char.isDigit = sp ++ u ++ suf →
        SizeStrShape (String.mk cs) num idx := by
      intro sp hsp hr
      refine ⟨cs.takeWhile Char.isDigit, sp, u, suf, ?_, hds, hdig, hsp, hu,
        hsuf, hnum⟩
      show cs = _
      conv_lhs => rw [hsplit]
      rw [hr]
      simp [List.append_assoc]
    rcases hrest : cs.dropWhile Char.isDigit with _ | ⟨c0, t0⟩
    · rw [hrest] at husuf
      have h0 : u ++ suf = [] := by
        simpa [dropOneSpace] using husuf.symm
      exact shape [] (Or.inl rfl) (by simp [hrest, h0])
    · rw [hrest] at husuf
      by_cases hc0 : c0 = ' '
      · subst hc0
        have hd1 : dropOneSpace (' ' :: t0) = t0 := by simp [dropOneSpace]
        rw [hd1] at husuf
        exact shape [' '] (Or.inr rfl)
          (by rw [hrest, husuf]; simp)
      · have hd1 : dropOneSpace (c0 :: t0) = c0 :: t0 := by
          simp [dropOneSpace, hc0]
        rw [hd1] at husuf
        exact shape [] (Or.inl rfl) (by rw [hrest, husuf]; simp)

/-! ## Properties of the size codec -/

theorem size_str_to_bytes_of_shape {s : String} {num idx : Nat}
    (h : SizeStrShape s num idx) (hnum : num < 2 ^ 53) :
    size_str_to_bytes (.inr s) = some ((num : Int) * 1024 ^ idx) := by
  have hidx : idx ≤ 8 := by
    obtain ⟨_, _, _, _, _, _, _, _, hu, _, _⟩ := h
    rcases hu with ⟨_, h0⟩ | ⟨c, _, hui⟩
    · omega
    · exact (unitIndex?_cases hui).2.2
  simp only [size_str_to_bytes, parseSizeChars_complete h,
    floatOfNat_of_lt hnum]
  have hlt : num * 2 ^ (10 * idx) < 2 ^ 1024 := by
    calc num * 2 ^ (10 * idx) < 2 ^ 53 * 2 ^ (10 * idx) := by
          have hp : 0 < 2 ^ (10 * idx) := Nat.pos_pow_of_pos _ (by omega)
          exact (Nat.mul_lt_mul_right hp).mpr hnum
      _ ≤ 2 ^ 53 * 2 ^ 80 := by
          have : (10 : Nat) * idx ≤ 80 := by omega
          exact Nat.mul_le_mul_left _ (Nat.pow_le_pow_right (by omega) this)
      _ < 2 ^ 1024 := by norm_num
  rw [if_pos hlt]
  congr 1
  push_cast
  rw [pow_mul]
  norm_num

theorem renderSize_not_parsed (scaled100 : Nat) (unit : String) :
    size_str_to_bytes (.inr (renderSize scaled100 unit)) = none := by
  simp only [size_str_to_bytes, renderSize]
  rw [parseSizeChars_dot _ _ (fun c hc => natChars_isDigit hc)]

set_option maxRecDepth 40000 in
/-- The size round trip parses back only the rendering of `0`: every
positive byte count renders with a decimal point, which the size regex
rejects (and byte counts at or beyond `1024 ^ 9` fail to render at
all), so `size_str_to_bytes (bytes_to_size_str n)` raises for every
`n ≥ 1`, whatever unit the format step selects. -/
theorem sizeRoundTrip_zero_only :
    sizeRoundTrip 0 = some 0 ∧
    (∀ n, 1 ≤ n → sizeRoundTrip n = none) ∧
    (∀ scaled100 unit,
      size_str_to_bytes (.inr (renderSize scaled100 unit)) = none) := by
  refine ⟨by decide, ?_, fun s u => renderSize_not_parsed s u⟩
  intro n hn
  rw [sizeRoundTrip, bytes_to_size_str, if_neg (by omega)]
  by_cases hi : natLog 1024 n < 9
  · rw [if_pos hi, Option.some_bind, renderSize_not_parsed]
  · rw [if_neg hi, Option.none_bind]

set_option maxRecDepth 40000 in
/-- Falsification of the round-trip property as stated: already at
`n = 1` the rendering is `"1.00 B"`, which `size_str_to_bytes`
rejects (`assert m` fails), so the round trip raises instead of
returning a value within 1 percent of `n`. -/
theorem sizeRoundTrip_cex : sizeRoundTrip 1 = none := by decide

/-- A hypothesis-discharging instance of `sizeRoundTrip_zero_only` at
the concrete input `n = 1536`. -/
theorem sizeRoundTrip_zero_only_witness :
    sizeRoundTrip 0 = some 0 ∧ sizeRoundTrip 1536 = none :=
  ⟨sizeRoundTrip_zero_only.1, sizeRoundTrip_zero_only.2.1 1536 (by norm_num)⟩

set_option maxRecDepth 40000 in
/-- Behaviour of `size_str_to_bytes`: integers pass through unchanged;
the documented examples parse as stated; a string matching the regex
with digit value below `2 ^ 53` yields `digits * 1024 ^ unitIndex`
(above `2 ^ 53` the binary64 product rounds the digit value, see the
accompanying counterexample); a string that matches no decomposition of
the regex makes the `assert` fail. -/
theorem size_str_to_bytes_spec :
    (∀ z : Int, size_str_to_bytes (.inl z) = some z) ∧
    size_str_to_bytes (.inr "10") = some 10 ∧
    size_str_to_bytes (.inr "1K") = some 1024 ∧
    size_str_to_bytes (.inr "2M") = some 2097152 ∧
    (∀ (s : String) (num idx : Nat), SizeStrShape s num idx → num < 2 ^ 53 →
      size_str_to_bytes (.inr s) = some ((num : Int) * 1024 ^ idx)) ∧
    (∀ s : String, (¬ ∃ num idx, SizeStrShape s num idx) →
      size_str_to_bytes (.inr s) = none) := by
  refine ⟨fun z => rfl, by decide, by decide, by decide,
    fun s num idx h hnum => size_str_to_bytes_of_shape h hnum, ?_⟩
  intro s hno
  rcases hp : parseSizeChars s.data with _ | ⟨num, idx⟩
  · simp [size_str_to_bytes, hp]
  · exact absurd ⟨num, idx, parseSizeChars_sound hp⟩ hno

set_option maxRecDepth 40000 in
/-- Falsification of the exact-product reading at a 17-digit input: the
string `"9007199254740993"` matches the regex with digit value
`2 ^ 53 + 1` and no unit, but the conversion to binary64 rounds the
value to `2 ^ 53`, so the function returns `9007199254740992` rather
than the digit value itself. -/
theorem size_str_to_bytes_cex :
    SizeStrShape "9007199254740993" 9007199254740993 0 ∧
    size_str_to_bytes (.inr "9007199254740993") = some 9007199254740992 := by
  constructor
  · exact ⟨"9007199254740993".data, [], [], [], by decide, by decide,
      by decide, Or.inl rfl, Or.inl ⟨rfl, rfl⟩, by decide, by decide⟩
  · decide

set_option maxRecDepth 40000 in
/-- A hypothesis-discharging instance of `size_str_to_bytes_spec` at the
concrete input `"5 GiB"`. -/
theorem size_str_to_bytes_spec_witness :
    size_str_to_bytes (.inr "5 GiB") = some ((5 : Int) * 1024 ^ 3) :=
  size_str_to_bytes_spec.2.2.2.2.1 "5 GiB" 5 3
    ⟨['5'], [' '], ['G'], ['i', 'B'], by decide, by decide, by decide,
      Or.inr rfl, Or.inr ⟨'G', rfl, by decide⟩, by decide, by decide⟩
    (by norm_num)

/-- The unit selection described by the specification (largest unit with
scaled value at least 1) at the input `1024 ^ 5 - 1`: under the exact
logarithm floor the rendering is `"1024.00 TB"`, and the input is
strictly below `1024 ^ 5`, so `TB` is the largest unit with scaled
value at least 1.  CPython instead evaluates
`math.log(1024 ** 5 - 1, 1024)` to exactly `5.0` (the correctly rounded
quotient of the two binary64 logarithms rounds up), so the shipped code
prints `"1.00 PB"`, a unit whose scaled value is below 1. -/
theorem bytes_to_size_str_boundary :
    bytes_to_size_str 1125899906842623 = some "1024.00 TB" ∧
    1125899906842623 < 1024 ^ 5 := by
  exact ⟨by decide, by norm_num⟩

/-! ## Properties of split_file -/

theorem split_loop_spec {α : Type} (file : List α) (bufSize : Nat)
    (hbuf : 1 ≤ bufSize) (outSize : Nat) :
    ∀ d size pos acc, outSize - size = d → size ≤ outSize →
      outSize - size ≤ file.length - pos → pos ≤ file.length →
      ∃ ws : List (List α),
        split_loop file bufSize outSize pos size acc
          = some (acc.reverse ++ ws) ∧
        ws.flatten = (file.drop pos).take (outSize - size) ∧
        ∀ w ∈ ws, w.length ≤ bufSize := by
  intro d
  induction d using Nat.strong_induction_on with
  | _ d ih =>
    intro size pos acc hd hsize hrem hpos
    by_cases heq : size = outSize
    · refine ⟨[], ?_, ?_, by simp⟩
      · rw [split_loop, dif_pos heq]
        simp
      · subst heq
        simp
    · have hlt : size < outSize := by omega
      have hcur1 : 1 ≤ min bufSize (outSize - size) := by omega
      have hcurle : min bufSize (outSize - size) ≤ outSize - size := by omega
      have hchunklen :
          ((file.drop pos).take (min bufSize (outSize - size))).length
            = min bufSize (outSize - size) := by
        rw [List.length_take, List.length_drop]
        omega
      rw [split_loop, dif_neg heq, dif_neg (by omega)]
      rw [dif_neg (by omega : ¬((file.drop pos).take
        (min bufSize (outSize - size))).length = 0)]
      obtain ⟨ws, hws, hjoin, hsizes⟩ := ih
        (outSize - (size + ((file.drop pos).take
          (min bufSize (outSize - size))).length))
        (by omega)
        (size + ((file.drop pos).take (min bufSize (outSize - size))).length)
        (pos + ((file.drop pos).take (min bufSize (outSize - size))).length)
        (((file.drop pos).take (min bufSize (outSize - size))) :: acc)
        rfl (by omega) (by omega) (by omega)
      refine ⟨(file.drop pos).take (min bufSize (outSize - size)) :: ws, ?_,
        ?_, ?_⟩
      · rw [hws]
        simp
      · rw [List.flatten_cons, hjoin, hchunklen]
        have hrw : outSize - size = min bufSize (outSize - size)
            + (outSize - (size + min bufSize (outSize - size))) := by omega
        conv_rhs => rw [hrw, List.take_add]
        congr 1
        rw [List.drop_drop]
      · intro w hw
        rcases List.mem_cons.mp hw with hw | hw
        · subst hw
          rw [hchunklen]
          omega
        · exact hsizes w hw

theorem split_file_run {α : Type} (file : List α) (len start bufSize : Nat)
    (hstart : start ≤ file.length) (hbuf : 1 ≤ bufSize) :
    ∃ ws : List (List α),
      split_file file (some len) start bufSize = some ws ∧
      ws.flatten = (file.drop start).take (min len (file.length - start)) ∧
      ws.flatten.length = min len (file.length - start) ∧
      ∀ w ∈ ws, w.length ≤ bufSize := by
  rw [split_file]
  have houtnn : ¬ (min (len : Int) ((file.length : Int) - start) < 0) := by
    omega
  rw [if_neg houtnn]
  have htn : (min (len : Int) ((file.length : Int) - start)).toNat
      = min len (file.length - start) := by
    omega
  rw [htn]
  obtain ⟨ws, hws, hjoin, hsizes⟩ := split_loop_spec file bufSize hbuf
    (min len (file.length - start)) (min len (file.length - start)) 0 start []
    (by omega) (by omega) (by omega) hstart
  refine ⟨ws, by simpa using hws, by simpa using hjoin, ?_, hsizes⟩
  have : ws.flatten = (file.drop start).take (min len (file.length - start)) := by
    simpa using hjoin
  rw [this, List.length_take, List.length_drop]
  omega

/-- Behaviour of `split_file` with an explicit target size: when the
start offset lies inside the file and the copy buffer is positive, it
writes exactly `min (length, fileSize - start)` bytes, namely the slice
of the source starting at `start`, in chunks each at most the buffer
size. -/
theorem split_file_spec {α : Type} (file : List α) (len start bufSize : Nat)
    (hstart : start ≤ file.length) (hbuf : 1 ≤ bufSize) :
    ∃ ws : List (List α),
      split_file file (some len) start bufSize = some ws ∧
      ws.flatten = (file.drop start).take (min len (file.length - start)) ∧
      ws.flatten.length = min len (file.length - start) ∧
      ∀ w ∈ ws, w.length ≤ bufSize :=
  split_file_run file len start bufSize hstart hbuf

/-- A hypothesis-discharging instance of `split_file_spec` on the
concrete five-byte file `[0, 1, 2, 3, 4]`, reading three bytes from
offset 1 with a two-byte copy buffer. -/
theorem split_file_spec_witness :
    ∃ ws : List (List Nat),
      split_file [0, 1, 2, 3, 4] (some 3) 1 2 = some ws ∧
      ws.flatten = [1, 2, 3] ∧ ws.flatten.length = 3 ∧
      ∀ w ∈ ws, w.length ≤ 2 := by
  obtain ⟨ws, h1, h2, h3, h4⟩ :=
    split_file_spec ([0, 1, 2, 3, 4] : List Nat) 3 1 2 (by norm_num)
      (by norm_num)
  exact ⟨ws, h1, by simpa using h2, by simpa using h3, h4⟩

/-! ## The concurrent upload session

`upload()` (gfile.py lines 164-210) runs `upload_chunk` (lines 100-161)
for chunk 0 synchronously, then submits chunks `1 .. chunks-1` to a
thread pool and watches the shared failure flag.  Each worker buffers
its chunk, streams the multipart body in 128 KiB slices, then busy-waits
in `gen()` until the shared cursor `current_chunk` equals its own index
before letting the POST complete, bumps the cursor, and records the
failure flag according to the JSON response.  The transition system
below models one session: one worker per chunk, the shared cursor, the
shared failure flag, and the coordinator loop over completed futures.
Worker scheduling is arbitrary (any enabled transition may fire), which
subsumes every pool size. -/

/-- The fields of a chunk upload JSON response that `upload_chunk`
inspects (lines 154-161): presence of a `url` key, and the `status`
value, `none` meaning the key is absent (the model restricts `status`
to integers; the server protocol uses 0 for success). -/
structure ChunkResp where
  hasUrl : Bool
  status : Option Int
deriving DecidableEq

/-- `'status' not in resp_data or resp_data['status']` (line 159): the
response reports failure when the status key is missing or truthy. -/
def failStatus (r : ChunkResp) : Bool :=
  match r.status with
  | none => true
  | some v => !(v == 0)

/-- Phase of one chunk worker.

* `unsub`: the future exists but has not started running;
* `emitting left`: the body generator has `left` slices still to yield;
* `posted`: the generator passed the cursor gate, the POST completed;
* `done`: the response was processed and the cursor advanced;
* `cancelled`: the future was cancelled before it started. -/
inductive WPhase
  | unsub
  | emitting (left : Nat)
  | posted
  | done
  | cancelled
deriving DecidableEq

/-- State of the coordinator loop over `as_completed(futures)`. -/
inductive CoordPhase
  | looping
  | returned
deriving DecidableEq

/-- Shared state of an upload session with `n` chunks. -/
structure UpState (n : Nat) where
  current_chunk : Nat
  failed : Bool
  phase : Fin n → WPhase
  observed : Fin n → Bool
  coord : CoordPhase

/-- Transition labels: which worker or coordinator action fires. -/
inductive ULabel (n : Nat)
  | emit (k : Fin n)
  | gate (k : Fin n)
  | retry (k : Fin n)
  | finish (k : Fin n)
  | start (k : Fin n)
  | observe (k : Fin n)

/-- Small-step semantics of the upload session.  `slices k` is the
number of body slices of chunk `k`, `resp k` the JSON response its POST
eventually receives.

* `emit`: the generator yields one 128 KiB slice (line 133);
* `gate`: with all slices yielded, the generator loop exits only when
  `chunk_no == current_chunk` (lines 139-143), completing the POST;
* `retryEmit`/`retryPost`: the POST raised; the `while True` loop at
  lines 144-152 restarts it with a fresh generator;
* `finish`: `resp.json()` is read, `current_chunk += 1`, and the
  failure flag is set if the status is missing or truthy (lines
  154-161);
* `start`: a pool thread picks up a submitted future; futures exist
  only after chunk 0 finished (line 181 precedes line 184) and while
  the coordinator has not returned;
* `observeOk`/`observeFail`: the coordinator receives a completed
  future from `as_completed` and checks the flag (lines 187-192); when
  the flag is set it cancels every not-yet-started future and
  returns. -/
inductive UStep {n : Nat} (slices : Fin n → Nat) (resp : Fin n → ChunkResp) :
    ULabel n → UpState n → UpState n → Prop
  | emit (s : UpState n) (k : Fin n) (left : Nat)
      (hp : s.phase k = .emitting (left + 1)) :
      UStep slices resp (.emit k) s
        { s with phase := Function.update s.phase k (.emitting left) }
  | gate (s : UpState n) (k : Fin n)
      (hp : s.phase k = .emitting 0) (hc : s.current_chunk = k.val) :
      UStep slices resp (.gate k) s
        { s with phase := Function.update s.phase k .posted }
  | retryEmit (s : UpState n) (k : Fin n) (left : Nat)
      (hp : s.phase k = .emitting left) :
      UStep slices resp (.retry k) s
        { s with phase := Function.update s.phase k (.emitting (slices k)) }
  | retryPost (s : UpState n) (k : Fin n)
      (hp : s.phase k = .posted) :
      UStep slices resp (.retry k) s
        { s with phase := Function.update s.phase k (.emitting (slices k)) }
  | finish (s : UpState n) (k : Fin n)
      (hp : s.phase k = .posted) :
      UStep slices resp (.finish k) s
        { s with current_chunk := s.current_chunk + 1,
                 failed := s.failed || failStatus (resp k),
                 phase := Function.update s.phase k .done }
  | start (s : UpState n) (k : Fin n)
      (hk : k.val ≠ 0) (hp : s.phase k = .unsub)
      (h0 : s.phase ⟨0, k.pos⟩ = .done) (hcoord : s.coord = .looping) :
      UStep slices resp (.start k) s
        { s with phase := Function.update s.phase k (.emitting (slices k)) }
  | observeOk (s : UpState n) (k : Fin n)
      (hk : k.val ≠ 0) (hp : s.phase k = .done) (hob : s.observed k = false)
      (hcoord : s.coord = .looping) (hfail : s.failed = false) :
      UStep slices resp (.observe k) s
        { s with observed := Function.update s.observed k true }
  | observeFail (s : UpState n) (k : Fin n)
      (hk : k.val ≠ 0) (hp : s.phase k = .done) (hob : s.observed k = false)
      (hcoord : s.coord = .looping) (hfail : s.failed = true) :
      UStep slices resp (.observe k) s
        { s with observed := Function.update s.observed k true,
                 coord := .returned,
                 phase := fun j =>
                   if s.phase j = .unsub then .cancelled else s.phase j }

/-- The state at the top of `upload()` after the session bookkeeping:
cursor at 0, flag clear, chunk 0 started synchronously, every other
chunk an unstarted future, coordinator not yet returned. -/
def upInit (n : Nat) (slices : Fin n → Nat) : UpState n where
  current_chunk := 0
  failed := false
  phase := fun k => if k.val = 0 then .emitting (slices k) else .unsub
  observed := fun _ => false
  coord := .looping

/-- States reachable from the start of an upload session. -/
inductive UReach {n : Nat} (slices : Fin n → Nat) (resp : Fin n → ChunkResp) :
    UpState n → Prop
  | init : UReach slices resp (upInit n slices)
  | step {s s' : UpState n} {l : ULabel n} (hr : UReach slices resp s)
      (hs : UStep slices resp l s s') : UReach slices resp s'

/-- The cursor-ordering invariant: the set of finished chunks is
exactly the chunks below the cursor; a worker whose POST has been
allowed to complete is the one the cursor points at; and before chunk 0
finishes (cursor still 0) no other chunk has even started. -/
def CursorInv {n : Nat} (s : UpState n) : Prop :=
  (∀ k : Fin n, s.phase k = .done ↔ k.val < s.current_chunk) ∧
  (∀ k : Fin n, s.phase k = .posted → k.val = s.current_chunk) ∧
  (s.current_chunk = 0 → ∀ k : Fin n, k.val ≠ 0 → s.phase k = .unsub)

theorem upInit_inv {n : Nat} (slices : Fin n → Nat) :
    CursorInv (upInit n slices) := by
  refine ⟨fun k => ?_, fun k h => ?_, fun _ k hk => ?_⟩
  · constructor
    · intro h
      by_cases h0 : k.val = 0 <;> simp [upInit, h0] at h
    · intro h
      simp [upInit] at h
  · by_cases h0 : k.val = 0 <;> simp [upInit, h0] at h
  · simp [upInit, hk]

theorem inv1_update_nondone {n : Nat} {s : UpState n}
    (inv1 : ∀ k : Fin n, s.phase k = .done ↔ k.val < s.current_chunk)
    {k : Fin n} {v : WPhase} (hv : v ≠ .done) (hk : s.phase k ≠ .done) :
    ∀ j : Fin n, Function.update s.phase k v j = .done
      ↔ j.val < s.current_chunk := by
  intro j
  by_cases hjk : j = k
  · subst hjk
    rw [Function.update_same]
    exact ⟨fun h => absurd h hv, fun h => absurd ((inv1 j).mpr h) hk⟩
  · rw [Function.update_noteq hjk]
    exact inv1 j

theorem inv2_update {n : Nat} {s : UpState n}
    (inv2 : ∀ k : Fin n, s.phase k = .posted → k.val = s.current_chunk)
    {k : Fin n} {v : WPhase}
    (hv : v = .posted → k.val = s.current_chunk) :
    ∀ j : Fin n, Function.update s.phase k v j = .posted
      → j.val = s.current_chunk := by
  intro j hj
  by_cases hjk : j = k
  · subst hjk
    rw [Function.update_same] at hj
    exact hv hj
  · rw [Function.update_noteq hjk] at hj
    exact inv2 j hj

theorem inv3_update {n : Nat} {s : UpState n}
    (inv3 : s.current_chunk = 0 → ∀ j : Fin n, j.val ≠ 0 → s.phase j = .unsub)
    {k : Fin n} {v : WPhase}
    (hv : s.current_chunk = 0 → k.val ≠ 0 → v = .unsub) :
    s.current_chunk = 0 → ∀ j : Fin n, j.val ≠ 0
      → Function.update s.phase k v j = .unsub := by
  intro hc j hj
  by_cases hjk : j = k
  · subst hjk
    rw [Function.update_same]
    exact hv hc hj
  · rw [Function.update_noteq hjk]
    exact inv3 hc j hj

theorem uStep_inv {n : Nat} {slices : Fin n → Nat} {resp : Fin n → ChunkResp}
    {l : ULabel n} {s s' : UpState n} (hstep : UStep slices resp l s s')
    (hinv : CursorInv s) : CursorInv s' := by
  obtain ⟨inv1, inv2, inv3⟩ := hinv
  cases hstep with
  | emit s k left hp =>
    refine ⟨?_, ?_, ?_⟩
    · exact inv1_update_nondone inv1 (by simp) (by rw [hp]; simp)
    · exact inv2_update inv2 (by intro h; cases h)
    · exact inv3_update inv3
        (fun hc hk0 => absurd (inv3 hc k hk0) (by rw [hp]; simp))
  | gate s k hp hc =>
    refine ⟨?_, ?_, ?_⟩
    · exact inv1_update_nondone inv1 (by simp) (by rw [hp]; simp)
    · exact inv2_update inv2 (fun _ => hc.symm)
    · exact inv3_update inv3
        (fun hc0 hk0 => absurd (inv3 hc0 k hk0) (by rw [hp]; simp))
  | retryEmit s k left hp =>
    refine ⟨?_, ?_, ?_⟩
    · exact inv1_update_nondone inv1 (by simp) (by rw [hp]; simp)
    · exact inv2_update inv2 (by intro h; cases h)
    · exact inv3_update inv3
        (fun hc hk0 => absurd (inv3 hc k hk0) (by rw [hp]; simp))
  | retryPost s k hp =>
    refine ⟨?_, ?_, ?_⟩
    · exact inv1_update_nondone inv1 (by simp) (by rw [hp]; simp)
    · exact inv2_update inv2 (by intro h; cases h)
    · exact inv3_update inv3
        (fun hc hk0 => absurd (inv3 hc k hk0) (by rw [hp]; simp))
  | start s k hk hp h0 hcoord =>
    have h0cur : (0 : Nat) < s.current_chunk := by
      have h00 := (inv1 ⟨0, k.pos⟩).mp h0
      simpa using h00
    refine ⟨?_, ?_, ?_⟩
    · exact inv1_update_nondone inv1 (by simp) (by rw [hp]; simp)
    · exact inv2_update inv2 (by intro h; cases h)
    · exact inv3_update inv3 (fun hc _ => absurd hc (by omega))
  | finish s k hp =>
    have hkcur : k.val = s.current_chunk := inv2 k hp
    refine ⟨fun j => ?_, fun j hj => ?_, fun hc => ?_⟩
    · show Function.update s.phase k .done j = .done
        ↔ j.val < s.current_chunk + 1
      by_cases hjk : j = k
      · subst hjk
        rw [Function.update_same]
        simp only [true_iff]
        omega
      · rw [Function.update_noteq hjk]
        rw [inv1 j]
        have hjne : j.val ≠ k.val := fun hv => hjk (Fin.ext hv)
        omega
    · exfalso
      have hj2 : Function.update s.phase k .done j = .posted := hj
      by_cases hjk : j = k
      · subst hjk
        rw [Function.update_same] at hj2
        cases hj2
      · rw [Function.update_noteq hjk] at hj2
        have := inv2 j hj2
        exact hjk (Fin.ext (by omega))
    · exact absurd hc (by simp)
  | observeOk s k hk hp hob hcoord hfail =>
    exact ⟨inv1, inv2, inv3⟩
  | observeFail s k hk hp hob hcoord hfail =>
    have hkcur : k.val < s.current_chunk := (inv1 k).mp hp
    refine ⟨fun j => ?_, fun j hj => ?_, fun hc => ?_⟩
    · show (if s.phase j = .unsub then WPhase.cancelled else s.phase j) = .done
        ↔ j.val < s.current_chunk
      by_cases hju : s.phase j = .unsub
      · rw [if_pos hju]
        constructor
        · intro h
          cases h
        · intro h
          rw [(inv1 j).mpr h] at hju
          cases hju
      · rw [if_neg hju]
        exact inv1 j
    · have hj2 : (if s.phase j = .unsub then WPhase.cancelled else s.phase j)
          = .posted := hj
      by_cases hju : s.phase j = .unsub
      · rw [if_pos hju] at hj2
        cases hj2
      · rw [if_neg hju] at hj2
        exact inv2 j hj2
    · exact absurd (show s.current_chunk = 0 from hc) (by omega)

/-- Every reachable state of an upload session satisfies the cursor
invariant. -/
theorem uReach_inv {n : Nat} {slices : Fin n → Nat}
    {resp : Fin n → ChunkResp} {s : UpState n}
    (hr : UReach slices resp s) : CursorInv s := by
  induction hr with
  | init => exact upInit_inv slices
  | step hr hs ih => exact uStep_inv hs ih

/-- Ordering of the upload session under every worker interleaving: in
every reachable state the finished chunks are exactly those below the
cursor (so the cursor advances strictly in index order, by one per
finished chunk); a chunk whose producer has passed the gate (POST
completed) is exactly the chunk the cursor points at, i.e. the producer
terminates only once `current_chunk` equals its index; before chunk 0
finishes no other chunk has been started (chunk 0 is uploaded
synchronously first); and a single step changes the cursor only by the
`finish` of the chunk it points at, incrementing it once. -/
theorem upload_cursor_ordered {n : Nat} (slices : Fin n → Nat)
    (resp : Fin n → ChunkResp) (s : UpState n)
    (hr : UReach slices resp s) :
    (∀ k : Fin n, s.phase k = .done ↔ k.val < s.current_chunk) ∧
    (∀ k j : Fin n, s.phase k = .done → j.val < k.val → s.phase j = .done) ∧
    (∀ k : Fin n, s.phase k = .posted → k.val = s.current_chunk) ∧
    (s.current_chunk = 0 → ∀ k : Fin n, k.val ≠ 0 → s.phase k = .unsub) ∧
    (∀ (t t' : UpState n) (l : ULabel n), UStep slices resp l t t' →
      t'.current_chunk = t.current_chunk ∨
      ∃ k : Fin n, l = .finish k ∧ t'.current_chunk = t.current_chunk + 1 ∧
        t.phase k = .posted ∧ t'.phase k = .done) := by
  obtain ⟨inv1, inv2, inv3⟩ := uReach_inv hr
  refine ⟨inv1, ?_, inv2, inv3, ?_⟩
  · intro k j hk hjk
    exact (inv1 j).mpr (lt_trans hjk ((inv1 k).mp hk))
  · intro t t' l hstep
    cases hstep with
    | emit t k left hp => exact Or.inl rfl
    | gate t k hp hc => exact Or.inl rfl
    | retryEmit t k left hp => exact Or.inl rfl
    | retryPost t k hp => exact Or.inl rfl
    | finish t k hp =>
      exact Or.inr ⟨k, rfl, rfl, hp,
        show Function.update t.phase k .done k = .done from
          Function.update_same k .done t.phase⟩
    | start t k hk hp h0 hcoord => exact Or.inl rfl
    | observeOk t k hk hp hob hcoord hfail => exact Or.inl rfl
    | observeFail t k hk hp hob hcoord hfail => exact Or.inl rfl

/-- A hypothesis-discharging instance of `upload_cursor_ordered` at the
initial state of a three-chunk session: no chunk is finished, and both
futures are still unsubmitted while chunk 0 runs. -/
theorem upload_cursor_ordered_witness :
    (upInit 3 (fun _ => 2)).current_chunk = 0 ∧
    (upInit 3 (fun _ => 2)).phase ⟨1, by norm_num⟩ = .unsub ∧
    (upInit 3 (fun _ => 2)).phase ⟨2, by norm_num⟩ = .unsub := by
  have h := upload_cursor_ordered (n := 3) (fun _ => 2)
    (fun _ => ⟨true, some 0⟩) _ UReach.init
  exact ⟨rfl, h.2.2.2.1 rfl ⟨1, by norm_num⟩ (by norm_num),
    h.2.2.2.1 rfl ⟨2, by norm_num⟩ (by norm_num)⟩

theorem update_preserves_cancelled {n : Nat} {s : UpState n} {k : Fin n}
    {v ph : WPhase} (hp : s.phase k = ph) (hph : ph ≠ .cancelled) :
    ∀ j : Fin n, s.phase j = .cancelled
      → Function.update s.phase k v j = .cancelled := by
  intro j hj
  by_cases hjk : j = k
  · subst hjk
    rw [hj] at hp
    exact absurd hp.symm hph
  · rw [Function.update_noteq hjk]
    exact hj

/-- Failure propagation: a worker whose response has a missing or
truthy status sets the shared flag as it finishes; the flag, once set,
stays set; when the coordinator receives a completed future while the
flag is set it returns and every not-yet-started future is cancelled;
after the coordinator has returned no future can start; and a cancelled
future never runs. -/
theorem upload_failure_cancels {n : Nat} (slices : Fin n → Nat)
    (resp : Fin n → ChunkResp) :
    (∀ (s s' : UpState n) (k : Fin n),
      UStep slices resp (.finish k) s s' → failStatus (resp k) = true →
      s'.failed = true) ∧
    (∀ (s s' : UpState n) (l : ULabel n),
      UStep slices resp l s s' → s.failed = true → s'.failed = true) ∧
    (∀ (s s' : UpState n) (k : Fin n),
      UStep slices resp (.observe k) s s' → s.failed = true →
      s'.coord = .returned ∧
      ∀ j : Fin n, s.phase j = .unsub → s'.phase j = .cancelled) ∧
    (∀ (s s' : UpState n) (k : Fin n), s.coord = .returned →
      ¬ UStep slices resp (.start k) s s') ∧
    (∀ (s s' : UpState n) (l : ULabel n) (j : Fin n),
      UStep slices resp l s s' → s.phase j = .cancelled →
      s'.phase j = .cancelled) := by
  refine ⟨?_, ?_, ?_, ?_, ?_⟩
  · intro s s' k hstep hfail
    cases hstep with
    | finish s k hp =>
      show (s.failed || failStatus (resp k)) = true
      rw [hfail]
      simp
  · intro s s' l hstep hf
    cases hstep <;> first
      | exact hf
      | (show (_ || _) = true; rw [hf]; simp)
  · intro s s' k hstep hf
    cases hstep with
    | observeOk s k hk hp hob hcoord hfail =>
      rw [hf] at hfail
      cases hfail
    | observeFail s k hk hp hob hcoord hfail =>
      refine ⟨rfl, fun j hj => ?_⟩
      show (if s.phase j = .unsub then WPhase.cancelled else s.phase j)
        = .cancelled
      rw [if_pos hj]
  · intro s s' k hret hstep
    cases hstep with
    | start s k hk hp h0 hcoord =>
      rw [hret] at hcoord
      cases hcoord
  · intro s s' l j hstep hcan
    cases hstep with
    | emit s k left hp => exact update_preserves_cancelled hp (by simp) j hcan
    | gate s k hp hc => exact update_preserves_cancelled hp (by simp) j hcan
    | retryEmit s k left hp =>
      exact update_preserves_cancelled hp (by simp) j hcan
    | retryPost s k hp => exact update_preserves_cancelled hp (by simp) j hcan
    | finish s k hp => exact update_preserves_cancelled hp (by simp) j hcan
    | start s k hk hp h0 hcoord =>
      exact update_preserves_cancelled hp (by simp) j hcan
    | observeOk s k hk hp hob hcoord hfail => exact hcan
    | observeFail s k hk hp hob hcoord hfail =>
      show (if s.phase j = .unsub then WPhase.cancelled else s.phase j)
        = .cancelled
      rw [hcan]
      simp

/-- The pre-state for the concrete failure-propagation instance: a
two-chunk session in which chunk 0 has finished and chunk 1 has passed
the gate, its POST carrying a failure status. -/
def failDemoPre : UpState 2 where
  current_chunk := 1
  failed := false
  phase := fun k => if k.val = 0 then .done else .posted
  observed := fun _ => false
  coord := .looping

/-- A hypothesis-discharging instance of `upload_failure_cancels`:
worker 1 of `failDemoPre` finishes with response status 1, and the
resulting state has the shared failure flag set. -/
theorem upload_failure_cancels_witness :
    ({ failDemoPre with
        current_chunk := failDemoPre.current_chunk + 1,
        failed := failDemoPre.failed || failStatus ⟨false, some 1⟩,
        phase := Function.update failDemoPre.phase ⟨1, by norm_num⟩ .done }
      : UpState 2).failed = true :=
  (upload_failure_cancels (n := 2) (fun _ => 1)
    (fun _ => ⟨false, some 1⟩)).1 failDemoPre _ ⟨1, by norm_num⟩
    (UStep.finish failDemoPre ⟨1, by norm_num⟩ rfl) rfl

/-! ## The sequential tail of upload() -/

/-- The effect of one completed `upload_chunk` call on the shared pair
`(self.data, self.failed)` (gfile.py lines 154-161): the response is
stored into `self.data` when it carries a `url` key, and the failure
flag is set when the status key is missing or truthy. -/
def chunk_effects (st : Option ChunkResp × Bool) (r : ChunkResp) :
    Option ChunkResp × Bool :=
  ((if r.hasUrl then some r else st.1), st.2 || failStatus r)

/-- Python exceptions that the code paths modelled below can raise. -/
inductive PyError
  | typeError
  | nameError
deriving DecidableEq

/-- The outcome of `upload()` as far as the session-result claims
inspect it. -/
inductive UploadOutcome
  | failedReturn
  | typeError
  | finished (warned : Bool)
deriving DecidableEq

/-- The coordinator loop over `as_completed(futures)` (lines 187-192)
under the schedule in which the loop receives each future right after
its worker completes, in list order: each completion applies the worker
effects, then the loop body checks the shared flag and returns early
when it is set. `none` models the early `return` at line 192. -/
def upload_loop : List ChunkResp → Option ChunkResp × Bool →
    Option (Option ChunkResp × Bool)
  | [], st => some st
  | r :: rs, st =>
    let st1 := chunk_effects st r
    if st1.2 then none else upload_loop rs st1

/-- The tail of `upload()` (lines 181-210) for a session whose chunk 0
receives response `r0` and whose remaining chunks complete in the order
`rest`: chunk 0 runs synchronously before the pool, the loop processes
the rest, and the final check `if 'url' not in self.data` (line 208)
raises `TypeError` when `self.data` is still `None`, because `in` is
applied to `None`; otherwise the stored response necessarily has a
`url` key, so the line 209 warning is unreachable. -/
def upload_run (r0 : ChunkResp) (rest : List ChunkResp) : UploadOutcome :=
  let st0 := chunk_effects (none, false) r0
  match upload_loop rest st0 with
  | none => .failedReturn
  | some (none, _) => .typeError
  | some (some r, _) => .finished (!r.hasUrl)

/-- A single-chunk session whose response has no `url` key: the worker
sets the failure flag (when the status reports failure), but the
worker-pool loop body never executes — `futures` is empty — so the flag
is never observed, `self.data` is still `None` at line 208, and
`upload()` raises `TypeError` instead of returning a result or a clean
failure report. -/
theorem upload_single_chunk_type_error (r : ChunkResp)
    (hurl : r.hasUrl = false) (hfail : failStatus r = true) :
    (chunk_effects (none, false) r).2 = true ∧
    upload_run r [] = .typeError := by
  constructor
  · simp [chunk_effects, hfail]
  · rw [upload_run]
    simp [upload_loop, chunk_effects, hurl]

/-- A hypothesis-discharging instance of
`upload_single_chunk_type_error` at the concrete failing response with
status 1 and no url. -/
theorem upload_single_chunk_type_error_witness :
    (chunk_effects (none, false) ⟨false, some 1⟩).2 = true ∧
    upload_run ⟨false, some 1⟩ [] = .typeError :=
  upload_single_chunk_type_error ⟨false, some 1⟩ rfl rfl

/-! ## The direct-download tail of download() -/

/-- The filesystem and reporting effects of the direct-mode download
tail: contents of `<name>.dl`, contents of the final file, and which
message was printed. -/
structure DlOutcome where
  tempFile : Option (List Nat)
  finalFile : Option (List Nat)
  successReported : Bool
  corruptReported : Bool
deriving DecidableEq

/-- Direct mode of `download()` after the download URL is built
(gfile.py lines 262-283): the response body arrives as a list of
chunks, each written in turn to the temp file `<name>.dl`; afterwards
the temp file size is compared with the declared `Content-Length`.  On
equality the temp file is renamed onto the final name and success is
reported; otherwise the rename is skipped, corruption is reported, and
the temp file is left in place (the code never deletes it). -/
def download_direct (content_length : Nat) (body : List (List Nat)) :
    DlOutcome :=
  let written := body.flatten
  if content_length = written.length then
    { tempFile := none, finalFile := some written,
      successReported := true, corruptReported := false }
  else
    { tempFile := some written, finalFile := none,
      successReported := false, corruptReported := true }

/-- Download integrity: delivering exactly `Content-Length` bytes makes
`download()` rename the temp file to the final name and report success;
any other byte count leaves the temp file in place untouched (never
deleted), performs no rename, and reports corruption. -/
theorem download_direct_integrity (content_length : Nat)
    (body : List (List Nat)) :
    (body.flatten.length = content_length →
      download_direct content_length body
        = { tempFile := none, finalFile := some body.flatten,
            successReported := true, corruptReported := false }) ∧
    (body.flatten.length ≠ content_length →
      download_direct content_length body
        = { tempFile := some body.flatten, finalFile := none,
            successReported := false, corruptReported := true }) := by
  constructor
  · intro h
    rw [download_direct, if_pos h.symm]
  · intro h
    rw [download_direct, if_neg (fun hc => h hc.symm)]

/-- A hypothesis-discharging instance of `download_direct_integrity`:
a declared length of 3 with 3 bytes delivered is renamed and reported
as success; with only 2 bytes delivered the temp file stays and
corruption is reported. -/
theorem download_direct_integrity_witness :
    download_direct 3 [[1, 2], [3]]
      = { tempFile := none, finalFile := some [1, 2, 3],
          successReported := true, corruptReported := false } ∧
    download_direct 3 [[1, 2]]
      = { tempFile := some [1, 2], finalFile := none,
          successReported := false, corruptReported := true } :=
  ⟨(download_direct_integrity 3 [[1, 2], [3]]).1 (by decide),
   (download_direct_integrity 3 [[1, 2]]).2 (by decide)⟩

/-! ## Landing-page resolution in download() -/

/-- What each extraction step of the `try` block of `download()`
(gfile.py lines 228-245) would yield on a given landing page; `none`
models the step raising (expected markup absent).  On a bundle
(matomete) page the steps run in the order name, file id, size string;
on a single-file page the file id comes from the share URL itself and
the steps size string, name follow. -/
structure PageData where
  isMatomete : Bool
  mWebName : Option String
  mFileId : Option String
  mSizeStr : Option String
  sSizeStr : Option String
  sWebName : Option String

/-- The local variables bound after the `try`/`except` (lines 228-245)
and whether the except branch reported a parse failure.  The first
raising step leaves its own and all later variables unbound; the
exception itself is caught and printed, never propagated. -/
structure ParseOutcome where
  webName : Option String
  fileId : Option String
  sizeStr : Option String
  parseErrorReported : Bool

/-- The `try` block of `download()`: sequential extraction with the
`except` clause catching any failure after printing the report
request. -/
def try_parse_page (urlId : String) (p : PageData) : ParseOutcome :=
  if p.isMatomete then
    match p.mWebName with
    | none => ⟨none, none, none, true⟩
    | some w =>
      match p.mFileId with
      | none => ⟨some w, none, none, true⟩
      | some fid =>
        match p.mSizeStr with
        | none => ⟨some w, some fid, none, true⟩
        | some sz => ⟨some w, some fid, some sz, false⟩
  else
    match p.sSizeStr with
    | none => ⟨none, some urlId, none, true⟩
    | some sz =>
      match p.sWebName with
      | none => ⟨none, some urlId, some sz, true⟩
      | some w => ⟨some w, some urlId, some sz, false⟩

/-- Whether some step of the `try` block raises on this page. -/
def pageParseFails (p : PageData) : Prop :=
  if p.isMatomete then
    p.mWebName = none ∨ p.mFileId = none ∨ p.mSizeStr = none
  else
    p.sSizeStr = none ∨ p.sWebName = none

/-- The characters `re.sub` replaces in a scraped filename
(line 249). -/
def badFilenameChars : List Char :=
  ['\\', '/', ':', '*', '?', '\x22', '<', '>', '|']

/-- Sanitisation of a scraped filename (line 249). -/
def sanitizeName (s : String) : String :=
  String.mk (s.data.map fun c => if c ∈ badFilenameChars then '_' else c)

/-- The code following the `try`/`except` (lines 247-253): resolve the
output filename (raising `NameError` when the scrape bound no name and
the caller supplied none) and build the download URL from the file id
(raising `NameError` when no id was bound).  The result is the
`(filename, download_url)` pair that the streaming phase uses. -/
def download_resolve (filenameArg : Option String) (origin : String)
    (password : Option String) (out : ParseOutcome) :
    Except PyError (String × String) := do
  let filename ← match filenameArg with
    | some f => pure f
    | none =>
      match out.webName with
      | some w => pure (sanitizeName w)
      | none => throw .nameError
  let fid ← match out.fileId with
    | some fid => pure fid
    | none => throw .nameError
  let url := origin ++ "/download.php?file=" ++ fid
  let url := match password with
    | some pw => url ++ "&dlkey=" ++ pw
    | none => url
  return (filename, url)

/-- Page-parse failures are reported, not raised: the `except` clause
catches every parse exception (so `try_parse_page` is total and flags
the report), and whenever a best-effort name (or a caller-supplied
filename) and a file id were still recoverable the download proceeds,
building the download URL from the recovered id. -/
theorem download_parse_error_nonfatal (urlId : String) (p : PageData)
    (filenameArg : Option String) (origin : String)
    (password : Option String) (hfail : pageParseFails p) :
    (try_parse_page urlId p).parseErrorReported = true ∧
    (∀ fid : String, (try_parse_page urlId p).fileId = some fid →
      (filenameArg ≠ none ∨ (try_parse_page urlId p).webName ≠ none) →
      ∃ fn url : String,
        download_resolve filenameArg origin password (try_parse_page urlId p)
          = .ok (fn, url) ∧
        url = (match password with
          | some pw => origin ++ "/download.php?file=" ++ fid
              ++ "&dlkey=" ++ pw
          | none => origin ++ "/download.php?file=" ++ fid)) := by
  have hrep : (try_parse_page urlId p).parseErrorReported = true := by
    rw [pageParseFails] at hfail
    rw [try_parse_page]
    by_cases hm : p.isMatomete
    · rw [if_pos hm] at hfail ⊢
      rcases hw : p.mWebName with _ | w
      · rfl
      · rcases hf : p.mFileId with _ | fid
        · rfl
        · rcases hs : p.mSizeStr with _ | sz
          · rfl
          · rw [hw, hf, hs] at hfail
            rcases hfail with h | h | h <;> cases h
    · rw [if_neg hm] at hfail ⊢
      rcases hs : p.sSizeStr with _ | sz
      · rfl
      · rcases hw : p.sWebName with _ | w
        · rfl
        · rw [hs, hw] at hfail
          rcases hfail with h | h <;> cases h
  refine ⟨hrep, fun fid hfid hname => ?_⟩
  rcases hfa : filenameArg with _ | f
  · rcases hwn : (try_parse_page urlId p).webName with _ | w
    · rcases hname with h | h
      · exact absurd hfa h
      · exact absurd hwn h
    · refine ⟨sanitizeName w, _, ?_, rfl⟩
      rw [download_resolve, hwn, hfid]
      rcases password with _ | pw <;> rfl
  · refine ⟨f, _, ?_, rfl⟩
    rw [download_resolve, hfid]
    rcases password with _ | pw <;> rfl

/-- A hypothesis-discharging instance of
`download_parse_error_nonfatal`: a bundle page whose size-string step
raises after the name and file id were extracted; the parse error is
reported and the download URL is still built. -/
theorem download_parse_error_nonfatal_witness :
    (try_parse_page "u" ⟨true, some "n", some "abc123", none, none, none⟩
      ).parseErrorReported = true ∧
    ∃ fn url : String,
      download_resolve none "https://99.gigafile.nu" none
          (try_parse_page "u" ⟨true, some "n", some "abc123", none, none,
            none⟩)
        = .ok (fn, url) ∧
      url = "https://99.gigafile.nu/download.php?file=abc123" := by
  have h := download_parse_error_nonfatal "u"
    ⟨true, some "n", some "abc123", none, none, none⟩ none
    "https://99.gigafile.nu" none (by simp [pageParseFails])
  obtain ⟨fn, url, hres, hurl⟩ := h.2 "abc123" rfl (Or.inr (by simp [try_parse_page]))
  exact ⟨h.1, fn, url, hres, by rw [hurl]; rfl⟩

/-! ## Exactness of the binary64 chunk count -/

/-- The nearest-integer rounding differs from the exact quotient by at
most one half. -/
theorem roundRatNE_bound {num den : Nat} (hden : 1 ≤ den) :
    |((roundRatNE num den : Nat) : ℚ) - (num : ℚ) / den| ≤ 1 / 2 := by
  have hd0 : (0 : ℚ) < (den : ℚ) := by exact_mod_cast (by omega : 0 < den)
  have hmod : (num : ℚ)
      = (den : ℚ) * ((num / den : Nat) : ℚ) + ((num % den : Nat) : ℚ) := by
    exact_mod_cast (Nat.div_add_mod num den).symm
  have hsplit : (num : ℚ) / den
      = ((num / den : Nat) : ℚ) + ((num % den : Nat) : ℚ) / den := by
    rw [div_eq_iff (ne_of_gt hd0), add_mul, div_mul_cancel₀ _ (ne_of_gt hd0)]
    linear_combination hmod
  have hrlt : ((num % den : Nat) : ℚ) < den := by
    exact_mod_cast Nat.mod_lt num (by omega)
  have hrnn : (0 : ℚ) ≤ ((num % den : Nat) : ℚ) := by positivity
  have hr01 : (0 : ℚ) ≤ ((num % den : Nat) : ℚ) / den :=
    div_nonneg hrnn (le_of_lt hd0)
  have hr1 : ((num % den : Nat) : ℚ) / den < 1 := (div_lt_one hd0).mpr hrlt
  simp only [roundRatNE]
  split_ifs with h1 h2 h3
  · have h1q : ((num % den : Nat) : ℚ) / den < 1 / 2 := by
      rw [div_lt_div_iff hd0 (by norm_num : (0:ℚ) < 2)]
      have : (2 : ℚ) * ((num % den : Nat) : ℚ) < den := by exact_mod_cast h1
      linarith
    rw [abs_le]
    constructor <;> rw [hsplit] <;> push_cast <;> linarith
  · have h2q : (1 : ℚ) / 2 < ((num % den : Nat) : ℚ) / den := by
      rw [div_lt_div_iff (by norm_num : (0:ℚ) < 2) hd0]
      have : (den : ℚ) < 2 * ((num % den : Nat) : ℚ) := by exact_mod_cast h2
      linarith
    rw [abs_le]
    constructor <;> rw [hsplit] <;> push_cast <;> linarith
  · have heq : ((num % den : Nat) : ℚ) / den = 1 / 2 := by
      rw [div_eq_div_iff (ne_of_gt hd0) (by norm_num : (2:ℚ) ≠ 0)]
      have : (2 : ℚ) * ((num % den : Nat) : ℚ) = den := by
        exact_mod_cast le_antisymm (by omega : 2 * (num % den) ≤ den)
          (by omega : den ≤ 2 * (num % den))
      linarith
    rw [abs_le]
    constructor <;> rw [hsplit] <;> push_cast <;> linarith
  · have heq : ((num % den : Nat) : ℚ) / den = 1 / 2 := by
      rw [div_eq_div_iff (ne_of_gt hd0) (by norm_num : (2:ℚ) ≠ 0)]
      have : (2 : ℚ) * ((num % den : Nat) : ℚ) = den := by
        exact_mod_cast le_antisymm (by omega : 2 * (num % den) ≤ den)
          (by omega : den ≤ 2 * (num % den))
      linarith
    rw [abs_le]
    constructor <;> rw [hsplit] <;> push_cast <;> linarith

/-- The binade bounds: `2 ^ e * C ≤ S < 2 ^ (e + 1) * C` for
`e = floatDivE S C`, i.e. the exact quotient lies in the chosen
binade. -/
theorem floatDivE_bounds {S C : Nat} (hS1 : 1 ≤ S) (hC1 : 1 ≤ C) :
    (2 : ℚ) ^ floatDivE S C * C ≤ S ∧
    (S : ℚ) < 2 ^ (floatDivE S C + 1) * C := by
  obtain ⟨haS, haS2⟩ := natLog_bounds (b := 2) (by omega) hS1
  obtain ⟨hbC, hbC2⟩ := natLog_bounds (b := 2) (by omega) hC1
  set a := natLog 2 S with ha
  set b := natLog 2 C with hb
  have hpb : (0 : ℚ) < 2 ^ (b : Int) := by positivity
  have hqaS : ((2 : ℚ)) ^ (a : Int) ≤ S := by
    rw [zpow_natCast]
    exact_mod_cast haS
  have hqaS2 : (S : ℚ) < 2 ^ ((a : Int) + 1) := by
    rw [show (a : Int) + 1 = ((a + 1 : Nat) : Int) by push_cast; ring,
      zpow_natCast]
    exact_mod_cast haS2
  have hqbC : ((2 : ℚ)) ^ (b : Int) ≤ C := by
    rw [zpow_natCast]
    exact_mod_cast hbC
  have hqbC2 : (C : ℚ) < 2 ^ ((b : Int) + 1) := by
    rw [show (b : Int) + 1 = ((b + 1 : Nat) : Int) by push_cast; ring,
      zpow_natCast]
    exact_mod_cast hbC2
  rw [floatDivE]
  split_ifs with hbr
  · have hbrq : (C : ℚ) * 2 ^ (a : Int) ≤ (S : ℚ) * 2 ^ (b : Int) := by
      rw [zpow_natCast, zpow_natCast]
      exact_mod_cast hbr
    constructor
    · rw [← mul_le_mul_right hpb]
      calc (2 : ℚ) ^ ((a : Int) - b) * C * 2 ^ (b : Int)
          = (C : ℚ) * 2 ^ (a : Int) := by
            rw [mul_right_comm, ← zpow_add₀ (two_ne_zero)]
            ring_nf
        _ ≤ (S : ℚ) * 2 ^ (b : Int) := hbrq
    · rw [← mul_lt_mul_right hpb]
      calc (S : ℚ) * 2 ^ (b : Int) ≤ S * C := by
            have hS0 : (0 : ℚ) ≤ S := by positivity
            exact mul_le_mul_of_nonneg_left hqbC hS0
        _ < 2 ^ ((a : Int) + 1) * C := by
            have hC0 : (0 : ℚ) < C := by
              exact_mod_cast (by omega : 0 < C)
            exact (mul_lt_mul_right hC0).mpr hqaS2
        _ = 2 ^ ((a : Int) - b + 1) * C * 2 ^ (b : Int) := by
            rw [mul_right_comm, ← zpow_add₀ (two_ne_zero)]
            ring_nf
  · push_neg at hbr
    have hbrq : (S : ℚ) * 2 ^ (b : Int) < (C : ℚ) * 2 ^ (a : Int) := by
      rw [zpow_natCast, zpow_natCast]
      exact_mod_cast hbr
    constructor
    · calc (2 : ℚ) ^ ((a : Int) - b - 1) * C
          ≤ 2 ^ ((a : Int) - b - 1) * 2 ^ ((b : Int) + 1) := by
            have hp : (0 : ℚ) < 2 ^ ((a : Int) - b - 1) := by positivity
            exact mul_le_mul_of_nonneg_left (le_of_lt hqbC2) (le_of_lt hp)
        _ = 2 ^ (a : Int) := by
            rw [← zpow_add₀ (two_ne_zero)]
            ring_nf
        _ ≤ S := hqaS
    · rw [← mul_lt_mul_right hpb]
      calc (S : ℚ) * 2 ^ (b : Int) < (C : ℚ) * 2 ^ (a : Int) := hbrq
        _ = 2 ^ ((a : Int) - b - 1 + 1) * C * 2 ^ (b : Int) := by
            rw [mul_right_comm, ← zpow_add₀ (two_ne_zero)]
            ring_nf

/-- The rounded quotient differs from the exact quotient by at most
half an ulp. -/
theorem floatDivM_bound {S C : Nat} (hC1 : 1 ≤ C) :
    |((floatDivM S C : Nat) : ℚ) * 2 ^ floatDivG S C - (S : ℚ) / C|
      ≤ 2 ^ (floatDivG S C - 1) := by
  set g := floatDivG S C with hg
  have hD1 : 1 ≤ C * 2 ^ g.toNat :=
    Nat.mul_le_mul hC1 Nat.one_le_two_pow
  have hb := @roundRatNE_bound (S * 2 ^ (-g).toNat) (C * 2 ^ g.toNat) hD1
  have hC0 : (0 : ℚ) < C := by exact_mod_cast (by omega : 0 < C)
  have hid : ((S * 2 ^ (-g).toNat : Nat) : ℚ) / ((C * 2 ^ g.toNat : Nat) : ℚ)
      = (S : ℚ) / C * 2 ^ (-g) := by
    push_cast
    rcases le_or_lt 0 g with hg0 | hg0
    · have h1 : (-g).toNat = 0 := by omega
      have h2 : (g.toNat : Int) = g := Int.toNat_of_nonneg hg0
      rw [h1, pow_zero, mul_one, zpow_neg,
        show ((2 : ℚ) ^ g.toNat : ℚ) = (2 : ℚ) ^ g by
          rw [← h2, zpow_natCast]; congr 1]
      field_simp
    · have h1 : g.toNat = 0 := by omega
      have h2 : (((-g).toNat : Nat) : Int) = -g := Int.toNat_of_nonneg (by omega)
      rw [h1, pow_zero, mul_one,
        show ((2 : ℚ) ^ (-g).toNat : ℚ) = (2 : ℚ) ^ (-g) by
          rw [← h2, zpow_natCast]; congr 1]
      exact mul_div_right_comm _ _ _
  have hgpos : (0 : ℚ) < 2 ^ g := by positivity
  have hND : ((S * 2 ^ (-g).toNat : Nat) : ℚ)
      / ((C * 2 ^ g.toNat : Nat) : ℚ) * 2 ^ g = (S : ℚ) / C := by
    rw [hid, mul_assoc, ← zpow_add₀ (two_ne_zero), neg_add_cancel, zpow_zero,
      mul_one]
  have hsplit : ((floatDivM S C : Nat) : ℚ) * 2 ^ g - (S : ℚ) / C
      = (((floatDivM S C : Nat) : ℚ)
        - ((S * 2 ^ (-g).toNat : Nat) : ℚ) / ((C * 2 ^ g.toNat : Nat) : ℚ))
        * 2 ^ g := by
    rw [sub_mul, hND]
  rw [hsplit, abs_mul, abs_of_pos hgpos]
  calc |((floatDivM S C : Nat) : ℚ)
        - ((S * 2 ^ (-g).toNat : Nat) : ℚ) / ((C * 2 ^ g.toNat : Nat) : ℚ)|
        * 2 ^ g
      ≤ 1 / 2 * 2 ^ g := mul_le_mul_of_nonneg_right hb (le_of_lt hgpos)
    _ = 2 ^ (g - 1) := by
        rw [zpow_sub₀ (two_ne_zero), zpow_one]
        ring

/-- For operands in the exactly-representable range the binary64
quotient, though rounded, still has the exact ceiling: `math.ceil` of
the rounded quotient equals the integer ceiling of `S / C`. -/
theorem floatDiv_ceil {S C : Nat} (hS1 : 1 ≤ S) (hS : S ≤ 2 ^ 53)
    (hC1 : 1 ≤ C) (hC : C ≤ 2 ^ 53) :
    ∃ q : ℚ, floatDiv S C = some q ∧
      Int.ceil q = (((S + C - 1) / C : Nat) : Int) := by
  by_cases hspec : S = 2 ^ 53 ∧ C = 1
  · obtain ⟨hs, hc⟩ := hspec
    subst hs
    subst hc
    have hG : floatDivG (2 ^ 53) 1 = 1 := by decide
    have hMv : floatDivM (2 ^ 53) 1 = 4503599627370496 := by decide
    refine ⟨(4503599627370496 : ℚ) * 2 ^ (1 : Int), ?_, ?_⟩
    · rw [floatDiv, if_neg (by norm_num), if_neg (by norm_num), hG, hMv]
      rw [if_pos (by norm_num)]
      norm_num
    · norm_num
  · obtain ⟨hel, heu⟩ := floatDivE_bounds (S := S) (C := C) hS1 hC1
    set e := floatDivE S C with he
    have hC0 : (0 : ℚ) < C := by exact_mod_cast (by omega : 0 < C)
    have hS0 : (0 : ℚ) < S := by exact_mod_cast (by omega : 0 < S)
    have hSq53 : (S : ℚ) ≤ 2 ^ (53 : Int) := by
      rw [show ((2 : ℚ) ^ (53 : Int)) = ((2 ^ 53 : Nat) : ℚ) by push_cast; norm_num]
      exact_mod_cast hS
    have hCq53 : (C : ℚ) ≤ 2 ^ (53 : Int) := by
      rw [show ((2 : ℚ) ^ (53 : Int)) = ((2 ^ 53 : Nat) : ℚ) by push_cast; norm_num]
      exact_mod_cast hC
    have he52 : e ≤ 52 := by
      by_contra h53
      push_neg at h53
      have h53' : (53 : Int) ≤ e := by omega
      have h1 : (2 : ℚ) ^ (53 : Int) * C ≤ S := by
        calc (2 : ℚ) ^ (53 : Int) * C ≤ 2 ^ e * C := by
              have := (zpow_le_zpow_iff_right₀
                (by norm_num : (1:ℚ) < 2)).mpr h53'
              exact mul_le_mul_of_nonneg_right this (le_of_lt hC0)
          _ ≤ S := hel
      have hCl1 : (C : ℚ) ≤ 1 := by
        by_contra hc1
        push_neg at hc1
        have h2 : (2 : ℚ) ^ (53 : Int) * 1 < 2 ^ (53 : Int) * C := by
          have hp : (0 : ℚ) < 2 ^ (53 : Int) := by positivity
          exact (mul_lt_mul_left hp).mpr hc1
        rw [mul_one] at h2
        linarith
      have hc1 : C = 1 := by
        have : (C : ℚ) ≥ 1 := by exact_mod_cast hC1
        have : (C : ℚ) = 1 := le_antisymm hCl1 this
        exact_mod_cast this
      have hs53 : S = 2 ^ 53 := by
        have hge : (2 : ℚ) ^ (53 : Int) ≤ S := by
          rw [hc1] at h1
          simpa using h1
        have : ((2 ^ 53 : Nat) : ℚ) ≤ S := by
          rw [show ((2 ^ 53 : Nat) : ℚ) = (2 : ℚ) ^ (53 : Int) by
            push_cast; norm_num]
          exact hge
        have h2 : 2 ^ 53 ≤ S := by exact_mod_cast this
        omega
      exact hspec ⟨hs53, hc1⟩
    have heneg : -53 ≤ e := by
      by_contra hlow
      push_neg at hlow
      have h1 : (S : ℚ) < 2 ^ (e + 1 : Int) * C := heu
      have h2 : (2 : ℚ) ^ (e + 1 : Int) * C ≤ 2 ^ (e + 1 : Int) * 2 ^ (53 : Int) := by
        have hp : (0 : ℚ) < 2 ^ (e + 1 : Int) := by positivity
        exact mul_le_mul_of_nonneg_left hCq53 (le_of_lt hp)
      have h3 : (2 : ℚ) ^ (e + 1 : Int) * 2 ^ (53 : Int) = 2 ^ (e + 54 : Int) := by
        rw [← zpow_add₀ (two_ne_zero)]
        ring_nf
      have h4 : (2 : ℚ) ^ (e + 54 : Int) ≤ 2 ^ (0 : Int) := by
        exact (zpow_le_zpow_iff_right₀ (by norm_num : (1:ℚ) < 2)).mpr (by omega)
      have h5 : (1 : ℚ) ≤ S := by exact_mod_cast hS1
      rw [zpow_zero] at h4
      linarith
    have hg : floatDivG S C = e - 52 := by
      rw [floatDivG, ← he]
      omega
    have hq := floatDivM_bound (S := S) (C := C) hC1
    rw [hg] at hq
    rw [show (e - 52 - 1 : Int) = e - 53 by ring] at hq
    set m := floatDivM S C with hm
    set q : ℚ := (m : ℚ) * 2 ^ (e - 52 : Int) with hqdef
    set M := (S + C - 1) / C with hMdef
    have hdm : C * M + (S + C - 1) % C = S + C - 1 := by
      rw [hMdef]
      exact Nat.div_add_mod _ _
    have hmlt : (S + C - 1) % C < C := Nat.mod_lt _ (by omega)
    have hMu : S ≤ C * M := by omega
    have hMl : C * M < S + C := by omega
    have hM1 : 1 ≤ M := by
      rcases Nat.eq_zero_or_pos M with h0 | h1
      · rw [h0, Nat.mul_zero] at hMu
        omega
      · exact h1
    have hsm : C * M = C * (M - 1) + C := by
      rcases M with _ | M2
      · omega
      · simp [Nat.mul_succ]
    have hMS : M ≤ S + C := by
      have h1 : M ≤ C * M := Nat.le_mul_of_pos_left M (by omega)
      omega
    have hMuq : (S : ℚ) ≤ C * M := by exact_mod_cast hMu
    have hMlq : ((M : ℚ) - 1) * C < S := by
      have h2 : C * (M - 1) < S := by omega
      have h3 : ((C * (M - 1) : Nat) : ℚ) = ((M : ℚ) - 1) * C := by
        rw [Nat.cast_mul, Nat.cast_sub hM1]
        push_cast
        ring
      rw [← h3]
      exact_mod_cast h2
    have hSCM : (S : ℚ) / C ≤ M := by
      rw [div_le_iff hC0]
      linarith
    have hSCM1 : (M : ℚ) - 1 < (S : ℚ) / C := by
      rw [lt_div_iff hC0]
      linarith
    have habs := abs_le.mp hq
    have hup : q ≤ (M : ℚ) := by
      by_contra hq2
      push_neg at hq2
      have h2p : (0 : ℚ) < (2 : ℚ) ^ (e - 52 : Int) := by positivity
      have htn : (((-(e - 52)).toNat : Nat) : Int) = 52 - e := by omega
      have hMMq : ((M * 2 ^ (-(e - 52)).toNat : Nat) : ℚ) * 2 ^ (e - 52 : Int)
          = M := by
        push_cast
        rw [show ((2 : ℚ) ^ ((-(e - 52)).toNat) : ℚ)
            = (2 : ℚ) ^ (52 - e : Int) by
          rw [← zpow_natCast (2 : ℚ) ((-(e - 52)).toNat), htn]]
        rw [mul_assoc, ← zpow_add₀ (two_ne_zero)]
        norm_num
      have hlt : ((M * 2 ^ (-(e - 52)).toNat : Nat) : ℚ) < m := by
        rw [← mul_lt_mul_right h2p, hMMq]
        exact hq2
      have hltn : M * 2 ^ (-(e - 52)).toNat < m := by exact_mod_cast hlt
      have hge : ((M * 2 ^ (-(e - 52)).toNat : Nat) : ℚ) + 1 ≤ (m : ℚ) := by
        have : M * 2 ^ (-(e - 52)).toNat + 1 ≤ m := by omega
        exact_mod_cast this
      have hq3 : (M : ℚ) + 2 ^ (e - 52 : Int) ≤ q := by
        calc (M : ℚ) + 2 ^ (e - 52 : Int)
            = (((M * 2 ^ (-(e - 52)).toNat : Nat) : ℚ) + 1)
              * 2 ^ (e - 52 : Int) := by
              rw [add_mul, one_mul, hMMq]
          _ ≤ (m : ℚ) * 2 ^ (e - 52 : Int) :=
              mul_le_mul_of_nonneg_right hge (le_of_lt h2p)
      have hq4 : q ≤ (S : ℚ) / C + 2 ^ (e - 53 : Int) := by linarith [habs.2]
      have hq5 : (2 : ℚ) ^ (e - 53 : Int) < 2 ^ (e - 52 : Int) :=
        zpow_lt_zpow_right₀ (by norm_num : (1:ℚ) < 2) (by omega)
      linarith
    have hlow : (M : ℚ) - 1 < q := by
      by_contra hq2
      push_neg at hq2
      have hql : (S : ℚ) / C - 2 ^ (e - 53 : Int) ≤ q := by linarith [habs.1]
      have hn : C * (M - 1) + 1 ≤ S := by omega
      have hstep : ((M : ℚ) - 1) + 1 / C ≤ (S : ℚ) / C := by
        have hnq : (C : ℚ) * ((M : ℚ) - 1) + 1 ≤ S := by
          have h3 : ((C * (M - 1) + 1 : Nat) : ℚ)
              = (C : ℚ) * ((M : ℚ) - 1) + 1 := by
            rw [Nat.cast_add, Nat.cast_mul, Nat.cast_sub hM1]
            push_cast
            ring
          rw [← h3]
          exact_mod_cast hn
        rw [← sub_nonneg]
        have h4 : (S : ℚ) / C - (((M : ℚ) - 1) + 1 / C)
            = ((S : ℚ) - ((C : ℚ) * ((M : ℚ) - 1) + 1)) / C := by
          field_simp
          ring
        rw [h4]
        apply div_nonneg _ (le_of_lt hC0)
        linarith
      have h1C : 1 / (C : ℚ) ≤ 2 ^ (e - 53 : Int) := by linarith
      have h2p53 : (0 : ℚ) < (2 : ℚ) ^ (53 - e : Int) := by positivity
      have hCge : (2 : ℚ) ^ (53 - e : Int) ≤ C := by
        rw [div_le_iff hC0] at h1C
        have h5 := mul_le_mul_of_nonneg_left h1C (le_of_lt h2p53)
        rw [mul_one] at h5
        calc (2 : ℚ) ^ (53 - e : Int)
            ≤ 2 ^ (53 - e : Int) * (2 ^ (e - 53 : Int) * C) := h5
          _ = C := by
              rw [← mul_assoc, ← zpow_add₀ (two_ne_zero)]
              norm_num
      have he0 : 0 ≤ e := by
        have h6 : (2 : ℚ) ^ (53 - e : Int) ≤ 2 ^ (53 : Int) :=
          le_trans hCge hCq53
        have h7 : (53 - e : Int) ≤ 53 :=
          (zpow_le_zpow_iff_right₀ (by norm_num : (1:ℚ) < 2)).mp h6
        omega
      have hCle : (C : ℚ) ≤ 2 ^ (53 - e : Int) := by
        have h2 : (2 : ℚ) ^ (e : Int) * C ≤ 2 ^ (53 : Int) := le_trans hel hSq53
        have h2pe : (0 : ℚ) < (2 : ℚ) ^ (-e : Int) := by positivity
        have h8 := mul_le_mul_of_nonneg_left h2 (le_of_lt h2pe)
        calc (C : ℚ) = 2 ^ (-e : Int) * (2 ^ (e : Int) * C) := by
              rw [← mul_assoc, ← zpow_add₀ (two_ne_zero)]
              norm_num
          _ ≤ 2 ^ (-e : Int) * 2 ^ (53 : Int) := h8
          _ = 2 ^ (53 - e : Int) := by
              rw [← zpow_add₀ (two_ne_zero)]
              ring_nf
      have hCeq : (C : ℚ) = 2 ^ (53 - e : Int) := le_antisymm hCle hCge
      have hSeq : (S : ℚ) = 2 ^ (53 : Int) := by
        refine le_antisymm hSq53 ?_
        calc (2 : ℚ) ^ (53 : Int) = 2 ^ (e : Int) * 2 ^ (53 - e : Int) := by
              rw [← zpow_add₀ (two_ne_zero)]
              ring_nf
          _ = 2 ^ (e : Int) * C := by rw [hCeq]
          _ ≤ S := hel
      have hSC : (S : ℚ) / C = 2 ^ (e : Int) := by
        rw [hSeq, hCeq, ← zpow_sub₀ (two_ne_zero)]
        norm_num
      have hpow : ((2 ^ e.toNat : Nat) : ℚ) = (2 : ℚ) ^ (e : Int) := by
        push_cast
        rw [← zpow_natCast (2 : ℚ) e.toNat]
        congr 1
        omega
      have hMle : M ≤ 2 ^ e.toNat := by
        have h9 : (M : ℚ) - 1 < ((2 ^ e.toNat : Nat) : ℚ) := by
          rw [hpow, ← hSC]
          exact hSCM1
        have h10 : (M : ℚ) < ((2 ^ e.toNat : Nat) : ℚ) + 1 := by linarith
        have h11 : M < 2 ^ e.toNat + 1 := by exact_mod_cast h10
        omega
      have hMleq : (M : ℚ) ≤ 2 ^ (e : Int) := by
        rw [← hpow]
        exact_mod_cast hMle
      have hsmall : (2 : ℚ) ^ (e - 53 : Int) < 1 := by
        have h12 : (2 : ℚ) ^ (e - 53 : Int) < 2 ^ (0 : Int) :=
          zpow_lt_zpow_right₀ (by norm_num : (1:ℚ) < 2) (by omega)
        simpa using h12
      have hfin : (2 : ℚ) ^ (e : Int) - 2 ^ (e - 53 : Int) ≤ q := by
        rw [← hSC]
        exact hql
      linarith
    have hM54 : (M : ℚ) ≤ ((2 ^ 54 : Nat) : ℚ) := by
      have h13 : M ≤ 2 ^ 54 := by
        have h14 : S + C ≤ 2 ^ 53 + 2 ^ 53 := by omega
        omega
      exact_mod_cast h13
    have hguard : q < (2 : ℚ) ^ (1024 : ℕ) := by
      have h15 : ((2 ^ 54 : Nat) : ℚ) < (2 : ℚ) ^ (1024 : ℕ) := by
        push_cast
        norm_num
      linarith
    refine ⟨q, ?_, ?_⟩
    · rw [floatDiv, if_neg (by omega), if_neg (by omega), hg]
      rw [if_pos hguard]
    · rw [Int.ceil_eq_iff]
      constructor
      · push_cast
        exact hlow
      · push_cast
        exact hup

theorem natCeilDiv_eq {S C : Nat} (hC1 : 1 ≤ C) :
    Int.ceil ((S : ℚ) / C) = (((S + C - 1) / C : Nat) : Int) := by
  have hC0 : (0 : ℚ) < C := by exact_mod_cast (by omega : 0 < C)
  set M := (S + C - 1) / C with hMdef
  have hdm : C * M + (S + C - 1) % C = S + C - 1 := by
    rw [hMdef]
    exact Nat.div_add_mod _ _
  have hmlt : (S + C - 1) % C < C := Nat.mod_lt _ (by omega)
  have hMu : S ≤ C * M := by omega
  have hMl : C * M < S + C := by omega
  rw [Int.ceil_eq_iff]
  constructor
  · push_cast
    rw [lt_div_iff hC0]
    have h1 : ((C * M : Nat) : ℚ) < ((S + C : Nat) : ℚ) := by exact_mod_cast hMl
    push_cast at h1
    have h3 : ((M : ℚ) - 1) * C = (C : ℚ) * M - C := by ring
    rw [h3]
    linarith
  · push_cast
    rw [div_le_iff hC0]
    have h2 : (S : ℚ) ≤ ((C * M : Nat) : ℚ) := by exact_mod_cast hMu
    push_cast at h2
    linarith

theorem chunk_sum {S C : Nat} (hC1 : 1 ≤ C) (hS1 : 1 ≤ S) :
    (∑ k ∈ Finset.range ((S + C - 1) / C), min C (S - k * C)) = S ∧
    (∀ k, k + 1 < (S + C - 1) / C → min C (S - k * C) = C) ∧
    (∀ k < (S + C - 1) / C, k * C < S) := by
  set M := (S + C - 1) / C with hMdef
  have hdm : C * M + (S + C - 1) % C = S + C - 1 := by
    rw [hMdef]
    exact Nat.div_add_mod _ _
  have hmlt : (S + C - 1) % C < C := Nat.mod_lt _ (by omega)
  have hMu : S ≤ C * M := by omega
  have hM1 : 1 ≤ M := by
    rcases Nat.eq_zero_or_pos M with h0 | h1
    · rw [h0, Nat.mul_zero] at hMu
      omega
    · exact h1
  have hsm : C * M = C * (M - 1) + C := by
    rcases M with _ | M2
    · omega
    · simp [Nat.mul_succ]
  have hMl : C * M < S + C := by omega
  have hlast : C * (M - 1) < S := by omega
  have hall : ∀ k, k + 1 < M → min C (S - k * C) = C := by
    intro k hk
    have h1 : C * (k + 1) ≤ C * (M - 1) := Nat.mul_le_mul_left C (by omega)
    have h2 : C * (k + 1) = C * k + C := by ring
    have h3 : k * C = C * k := Nat.mul_comm _ _
    omega
  have hoff : ∀ k < M, k * C < S := by
    intro k hk
    have h1 : C * k ≤ C * (M - 1) := Nat.mul_le_mul_left C (by omega)
    have h3 : k * C = C * k := Nat.mul_comm _ _
    omega
  refine ⟨?_, hall, hoff⟩
  have hMsplit : M = (M - 1) + 1 := by omega
  rw [hMsplit, Finset.sum_range_succ]
  have hconst : ∀ k ∈ Finset.range (M - 1), min C (S - k * C) = C := by
    intro k hk
    exact hall k (by have := Finset.mem_range.mp hk; omega)
  rw [Finset.sum_congr rfl hconst, Finset.sum_const, Finset.card_range,
    smul_eq_mul]
  have h4 : (M - 1) * C = C * (M - 1) := Nat.mul_comm _ _
  omega

/-- C1 (amended to the exactly-representable range S, C ≤ 2^53): for a
file of size S ≥ 1 and chunk size 1 ≤ C ≤ 2^53, `upload()` (gfile.py
line 170) computes the chunk count `math.ceil(size / chunk_size)` as
exactly the integer ceiling of S / C, which equals (S + C - 1) / C; and
the per-chunk reads of `upload_chunk` (gfile.py line 103:
`split_file(..., chunk_size, start=chunk_no * chunk_size, ...)`, chunk k
reading min C (S - k*C) bytes at offset k*C) have lengths summing to S,
every chunk except possibly the last of length exactly C, and
`split_file` really delivers those bytes. -/
theorem upload_chunk_partition {α : Type} (S C : Nat)
    (hS1 : 1 ≤ S) (hS : S ≤ 2 ^ 53) (hC1 : 1 ≤ C) (hC : C ≤ 2 ^ 53)
    (file : List α) (hfile : file.length = S) :
    pyChunkCount S C = some (Int.ceil ((S : ℚ) / C)) ∧
    Int.ceil ((S : ℚ) / C) = (((S + C - 1) / C : Nat) : Int) ∧
    (∑ k ∈ Finset.range ((S + C - 1) / C), min C (S - k * C)) = S ∧
    (∀ k, k + 1 < (S + C - 1) / C → min C (S - k * C) = C) ∧
    (∀ k < (S + C - 1) / C, ∀ bufSize, 1 ≤ bufSize →
      ∃ ws : List (List α),
        split_file file (some C) (k * C) bufSize = some ws ∧
        ws.flatten = (file.drop (k * C)).take (min C (S - k * C)) ∧
        ws.flatten.length = min C (S - k * C) ∧
        ∀ w ∈ ws, w.length ≤ bufSize) := by
  have hceil := natCeilDiv_eq (S := S) (C := C) hC1
  obtain ⟨hsum, hmost, hoff⟩ := chunk_sum (S := S) (C := C) hC1 hS1
  obtain ⟨q, hq, hqceil⟩ := floatDiv_ceil hS1 hS hC1 hC
  refine ⟨?_, hceil, hsum, hmost, ?_⟩
  · rw [pyChunkCount, hq, Option.map_some']
    rw [hqceil, hceil]
  · intro k hk bufSize hbuf
    have hstart : k * C ≤ file.length := by
      rw [hfile]
      exact le_of_lt (hoff k hk)
    obtain ⟨ws, hws, hflat, hlen, hwb⟩ :=
      split_file_run file C (k * C) bufSize hstart hbuf
    rw [hfile] at hflat hlen
    exact ⟨ws, hws, hflat, hlen, hwb⟩

/-- C1 counterexample: at S = 2^53 + 1 with C = 1 the float division
rounds S to 2^53, so `math.ceil(size / chunk_size)` returns 2^53 while
the exact ceiling of S / C is 2^53 + 1: one final chunk is never
uploaded. -/
theorem pyChunkCount_cex :
    pyChunkCount 9007199254740993 1 = some 9007199254740992 ∧
    Int.ceil ((9007199254740993 : ℚ) / 1) = 9007199254740993 := by
  constructor
  · have hG : floatDivG 9007199254740993 1 = 1 := by decide
    have hM : floatDivM 9007199254740993 1 = 4503599627370496 := by decide
    rw [pyChunkCount, floatDiv, if_neg (by norm_num), if_neg (by norm_num),
      hG, hM]
    rw [if_pos (by norm_num), Option.map_some']
    norm_num
  · norm_num

/-- C1 witness: the 25 MiB file with 10 MiB chunks from the spec's own
example yields exactly 3 chunks. -/
theorem upload_chunk_partition_witness :
    pyChunkCount 26214400 10485760 = some 3 := by
  obtain ⟨h1, h2, -, -, -⟩ :=
    upload_chunk_partition 26214400 10485760 (by norm_num) (by norm_num)
      (by norm_num) (by norm_num) (List.replicate 26214400 (0 : Nat))
      (List.length_replicate _ _)
  rw [h1, h2]
  norm_num

end GFile